import Mathlib

/-!
Verification development for the Huffman coding / entropy core of the
DataCompression repository (file: Huffman coding/huffman_entropy.py).

The Python source is shallowly embedded below:
* texts are lists of characters,
* Counter(text) iteration is modelled by the function keys (distinct
  elements in first-occurrence order, as Python dictionaries iterate)
  together with List.count,
* floats are modelled by real numbers,
* the heapq module functions heappush and heappop are transcribed from
  the CPython reference implementation (including _siftdown and _siftup),
  with an explicit fuel argument that provably covers the number of loop
  iterations, so that every definition is a total structural recursion,
* the Node class becomes an inductive type with one constructor per
  constructor call site of the source (leaves are created with no
  children, internal nodes with both children),
* the mutable default argument codes_list=[] of extract_huffman_codes is
  modelled by threading the shared accumulator explicitly: the functions
  with suffix _g take the current value of that module-level list and
  return (result, new value of the list); a call in a fresh process
  corresponds to the initial value [].
-/

/-- Distinct elements of a list in first-occurrence order, with an
accumulator of elements already seen.  This models the key order of a
Python Counter / dict (insertion order). -/
def keysAux {α : Type} [DecidableEq α] : List α → List α → List α
  | _, [] => []
  | seen, a :: as => if a ∈ seen then keysAux seen as else a :: keysAux (a :: seen) as

/-- Keys of Counter(l) in iteration order: distinct elements of l in
first-occurrence order.  The count of a key s is List.count s l. -/
def keys {α : Type} [DecidableEq α] (l : List α) : List α := keysAux [] l

/-- The list comprehension [text[i:i+2] for i in range(0, n, 2)]:
non-overlapping chunks of size 2 in original order; for odd length the
final chunk is the single remaining character. -/
def chunks : List Char → List (List Char)
  | [] => []
  | [a] => [[a]]
  | a :: b :: rest => [a, b] :: chunks rest

/-- calculate_first_order_entropy: for each distinct symbol s,
prob = count(s)/n and the terms prob * log2 prob are accumulated; the
negated sum is returned. -/
noncomputable def calculate_first_order_entropy (t : List Char) : ℝ :=
  -(((keys t).map (fun s =>
      ((t.count s : ℝ) / (t.length : ℝ)) *
        Real.logb 2 ((t.count s : ℝ) / (t.length : ℝ)))).sum)

/-- calculate_second_order_entropy: pairs = chunks of 2 (no padding in
this function), prob = count(pair)/len(pairs), and the negated sum is
divided by 2. -/
noncomputable def calculate_second_order_entropy (t : List Char) : ℝ :=
  -((((keys (chunks t)).map (fun p =>
      (((chunks t).count p : ℝ) / ((chunks t).length : ℝ)) *
        Real.logb 2 (((chunks t).count p : ℝ) / ((chunks t).length : ℝ)))).sum)) / 2

/-- The Node class of the source.  The source creates nodes at exactly two
sites: Node(freq, symbol) with no children (a leaf) and
Node(freq, symbol, left, right) with both children (an internal node).
The huff attribute starts as the empty string and is set to a single
digit when the node is merged below another node; it is modelled as the
list of characters appended to the code during extraction. -/
inductive Node (α : Type) : Type where
  | leaf (freq : Nat) (symbol : α) (huff : List Char)
  | internal (freq : Nat) (symbol : α) (left : Node α) (right : Node α) (huff : List Char)
deriving DecidableEq

/-- Frequency attribute of a node. -/
def freqOf {α : Type} : Node α → Nat
  | .leaf f _ _ => f
  | .internal f _ _ _ _ => f

/-- Symbol attribute of a node. -/
def symbolOf {α : Type} : Node α → α
  | .leaf _ s _ => s
  | .internal _ s _ _ _ => s

/-- Huff attribute of a node. -/
def huffOf {α : Type} : Node α → List Char
  | .leaf _ _ h => h
  | .internal _ _ _ _ h => h

/-- Assignment node.huff = d of the source (left.huff = 0, right.huff = 1). -/
def setHuff {α : Type} : Node α → List Char → Node α
  | .leaf f s _, h => .leaf f s h
  | .internal f s l r _, h => .internal f s l r h

/-- One step bound of _siftdown from CPython heapq: newitem climbs towards
startpos, pulling larger parents down.  The fuel argument bounds the
number of iterations of the while loop; every call below passes
fuel = pos, which suffices because pos strictly decreases each iteration,
and when fuel runs out pos has reached 0, where the loop body would stop
and store newitem anyway. -/
def siftdownFuel {α : Type} : Nat → List (Node α) → Nat → Nat → Node α → List (Node α)
  | 0, heap, _, pos, newitem => heap.set pos newitem
  | fuel + 1, heap, startpos, pos, newitem =>
    if startpos < pos then
      let parentpos := (pos - 1) / 2
      let parent := heap.getD parentpos newitem
      if freqOf newitem < freqOf parent then
        siftdownFuel fuel (heap.set pos parent) startpos parentpos newitem
      else heap.set pos newitem
    else heap.set pos newitem

/-- _siftup from CPython heapq: the hole at pos descends to a leaf along
the smaller children, then newitem is placed and sifted towards startpos.
Comparisons use Node.__lt__, i.e. comparison of freq only.  fuel bounds
the iterations of the while loop; all calls pass fuel = heap.length,
which suffices because pos strictly increases within bounds. -/
def siftupFuel {α : Type} : Nat → List (Node α) → Nat → Node α → Nat → List (Node α)
  | 0, heap, pos, newitem, startpos => siftdownFuel pos (heap.set pos newitem) startpos pos newitem
  | fuel + 1, heap, pos, newitem, startpos =>
    let endpos := heap.length
    let childpos := 2 * pos + 1
    if childpos < endpos then
      let rightpos := childpos + 1
      let childpos2 :=
        if rightpos < endpos ∧
            ¬ (freqOf (heap.getD childpos newitem) < freqOf (heap.getD rightpos newitem)) then
          rightpos
        else childpos
      siftupFuel fuel (heap.set pos (heap.getD childpos2 newitem)) childpos2 newitem startpos
    else siftdownFuel pos (heap.set pos newitem) startpos pos newitem

/-- heappush from CPython heapq: append the item and sift it down towards
the root.  The appended item sits at index heap.length, which is also the
initial pos of _siftdown, hence the fuel. -/
def heappush {α : Type} (heap : List (Node α)) (item : Node α) : List (Node α) :=
  siftdownFuel heap.length (heap ++ [item]) 0 heap.length item

/-- heappop from CPython heapq: remove the last element; if the heap is
then non-empty, return the root, move the last element to the root and
sift it up.  Popping an empty heap raises in Python; that is the none
case. -/
def heappop {α : Type} (heap : List (Node α)) : Option (Node α × List (Node α)) :=
  match heap.getLast? with
  | none => none
  | some lastelt =>
    match heap.dropLast with
    | [] => some (lastelt, [])
    | y :: ys => some (y, siftupFuel (lastelt :: ys).length (lastelt :: ys) 0 lastelt 0)

/-- The while len(nodes) > 1 merge loop shared by generate_huffman_codes
and generate_joint_huffman_codes: pop the two smallest nodes, set their
huff digits to 0 and 1, and push an internal node whose frequency is the
sum and whose symbol combines the children's symbols (string
concatenation in single mode, tuple formation in joint mode).  fuel
bounds the iterations; every call passes the initial heap size, which
suffices since each iteration shrinks the heap by one. -/
def mergeLoopF {α : Type} (combine : α → α → α) : Nat → List (Node α) → List (Node α)
  | 0, nodes => nodes
  | fuel + 1, nodes =>
    if 1 < nodes.length then
      match heappop nodes with
      | none => nodes
      | some (left, rest) =>
        match heappop rest with
        | none => nodes
        | some (right, rest2) =>
          mergeLoopF combine fuel
            (heappush rest2
              (Node.internal (freqOf left + freqOf right)
                (combine (symbolOf left) (symbolOf right))
                (setHuff left ['0']) (setHuff right ['1']) []))
    else nodes

/-- extract_huffman_codes: new_code = code + str(node.huff); recurse into
the left child, then the right child; at a leaf append (symbol, new_code)
to the accumulator list and return it. -/
def extract_huffman_codes {α : Type} : Node α → List Char → List (α × List Char) → List (α × List Char)
  | .leaf _ s h, code, acc => acc ++ [(s, code ++ h)]
  | .internal _ _ l r h, code, acc =>
      extract_huffman_codes r (code ++ h) (extract_huffman_codes l (code ++ h) acc)

/-- The heap built by the for symbol in counter loop of
generate_huffman_codes: one leaf per distinct symbol with frequency
counter[symbol], pushed in Counter iteration order. -/
def buildLeafHeap (t : List Char) : List (Node (List Char)) :=
  (keys t).foldl (fun ns sym => heappush ns (Node.leaf (t.count sym) [sym] [])) []

/-- Symbol combination of single-symbol mode: left.symbol + right.symbol
(string concatenation). -/
def combineStr (a b : List Char) : List Char := a ++ b

/-- generate_huffman_codes with the module-level shared accumulator made
explicit: codesGlobal is the current value of the default argument
codes_list=[] of extract_huffman_codes (a single list object created at
function definition time and mutated by every call that does not pass
its own list).  Returns (returned codes list, new accumulator value). -/
def generate_huffman_codes_g (codesGlobal : List (List Char × List Char)) (t : List Char) :
    List (List Char × List Char) × List (List Char × List Char) :=
  let heap := buildLeafHeap t
  match mergeLoopF combineStr heap.length heap with
  | [] => ([], codesGlobal)
  | root :: _ =>
      let r := extract_huffman_codes root [] codesGlobal
      (r, r)

/-- generate_huffman_codes as called first in a fresh process: the shared
accumulator still holds its initial value []. -/
def generate_huffman_codes (t : List Char) : List (List Char × List Char) :=
  (generate_huffman_codes_g [] t).1

/-- Counter(text)[symbol] where symbol is a symbol taken from the codes
list: the count of the character for a one-character string, 0 for any
key that cannot occur in Counter(text). -/
def counterLookup (t : List Char) : List Char → Nat
  | [c] => t.count c
  | _ => 0

/-- calculate_average_codeword_length: sum of
(counter[symbol]/n) * len(code) over the generated codes list. -/
noncomputable def calculate_average_codeword_length (t : List Char) : ℝ :=
  ((generate_huffman_codes t).map (fun sc =>
      ((counterLookup t sc.1 : ℝ) / (t.length : ℝ)) * (sc.2.length : ℝ))).sum

/-- Padding pairs[-1] += '_' of the joint functions: appends the sentinel
to the final chunk. -/
def padLast : List (List Char) → List (List Char)
  | [] => []
  | [p] => [p ++ ['_']]
  | p :: rest => p :: padLast rest

/-- The pairs list of generate_joint_huffman_codes and
calculate_joint_average_codeword_length: chunks of 2, with the final
chunk padded by the sentinel when the text length is odd. -/
def jointPairs (t : List Char) : List (List Char) :=
  if t.length % 2 = 1 then padLast (chunks t) else chunks t

/-- Symbol payloads in joint mode: leaves carry the pair string, internal
nodes carry the Python tuple (left.symbol, right.symbol). -/
inductive JSym : Type where
  | str : List Char → JSym
  | pair : JSym → JSym → JSym
deriving DecidableEq

/-- The leaf heap of generate_joint_huffman_codes: one leaf per distinct
pair, in Counter iteration order. -/
def jointLeafHeap (t : List Char) : List (Node JSym) :=
  (keys (jointPairs t)).foldl
    (fun ns p => heappush ns (Node.leaf ((jointPairs t).count p) (JSym.str p) [])) []

/-- generate_joint_huffman_codes with the shared accumulator explicit,
as for generate_huffman_codes_g. -/
def generate_joint_huffman_codes_g (codesGlobal : List (JSym × List Char)) (t : List Char) :
    List (JSym × List Char) × List (JSym × List Char) :=
  let heap := jointLeafHeap t
  match mergeLoopF JSym.pair heap.length heap with
  | [] => ([], codesGlobal)
  | root :: _ =>
      let r := extract_huffman_codes root [] codesGlobal
      (r, r)

/-- generate_joint_huffman_codes in a fresh process. -/
def generate_joint_huffman_codes (t : List Char) : List (JSym × List Char) :=
  (generate_joint_huffman_codes_g [] t).1

/-- Counter(pairs)[symbol] for a symbol from the joint codes list: counts
of the pair string for leaves; internal tuple symbols are never Counter
keys, so they look up as 0. -/
def jointCounterLookup (pairs : List (List Char)) : JSym → Nat
  | .str p => pairs.count p
  | .pair _ _ => 0

/-- calculate_joint_average_codeword_length: sum of
(counter[symbol]/len(pairs)) * len(code) over the joint codes list,
with the padded pairs list and no division by 2. -/
noncomputable def calculate_joint_average_codeword_length (t : List Char) : ℝ :=
  ((generate_joint_huffman_codes t).map (fun sc =>
      ((jointCounterLookup (jointPairs t) sc.1 : ℝ) / ((jointPairs t).length : ℝ)) *
        (sc.2.length : ℝ))).sum

/-- Symbols of the leaves of a tree, in left-to-right traversal order. -/
def leafSyms {α : Type} : Node α → List α
  | .leaf _ s _ => [s]
  | .internal _ _ l r _ => leafSyms l ++ leafSyms r

/-- Frequencies of the leaves of a tree, in left-to-right order. -/
def leafFreqs {α : Type} : Node α → List Nat
  | .leaf f _ _ => [f]
  | .internal _ _ l r _ => leafFreqs l ++ leafFreqs r

/-- The structural invariant of claim C9 on the whole tree: every internal
node's frequency equals the sum of its two children's frequencies, and
(by the shape of the two Node construction sites) every node has either
no children or both. -/
def wellFormed {α : Type} : Node α → Bool
  | .leaf _ _ _ => true
  | .internal f _ l r _ => (f == freqOf l + freqOf r) && wellFormed l && wellFormed r

/-- Huff digits as assigned by the merge loop: in every internal node the
left child carries digit 0 and the right child digit 1. -/
def goodHuff {α : Type} : Node α → Bool
  | .leaf _ _ _ => true
  | .internal _ _ l r _ =>
      (huffOf l == ['0']) && (huffOf r == ['1']) && goodHuff l && goodHuff r

/-- The (symbol, code) pairs extract_huffman_codes appends for the subtree
rooted at a node, given the code accumulated strictly above the node. -/
def codesOf {α : Type} : Node α → List Char → List (α × List Char)
  | .leaf _ s h, code => [(s, code ++ h)]
  | .internal _ _ l r h, code => codesOf l (code ++ h) ++ codesOf r (code ++ h)

/-- Total cost accumulated by the merges below a node: each internal node
contributes the sum of its children's frequencies.  For trees built by
the merge loop this is the frequency-weighted external path length. -/
def depthCost {α : Type} : Node α → Nat
  | .leaf _ _ _ => 0
  | .internal _ _ l r _ => depthCost l + depthCost r + (freqOf l + freqOf r)

/-- Every leaf of the tree carries a one-character symbol [c] whose
frequency is the count of c in the text, i.e. leaves are exactly the
Counter entries they were created from. -/
def leafFreqCnt (t : List Char) : Node (List Char) → Prop
  | .leaf f s _ => f = counterLookup t s
  | .internal _ _ l r _ => leafFreqCnt t l ∧ leafFreqCnt t r

/-- The binary-heap ordering invariant of the heapq list representation:
every element is at least its parent at index (i-1)/2. -/
def IsHeap {α : Type} (h : List (Node α)) : Prop :=
  ∀ i, 0 < i → ∀ x y, h[i]? = some x → h[(i - 1) / 2]? = some y → freqOf y ≤ freqOf x

/-- Heap ordering holds for every parent-child pair whose child index is
not p (the position of a hole being filled by _siftdown). -/
def IsHeapExceptAt {α : Type} (h : List (Node α)) (p : Nat) : Prop :=
  ∀ i x y, 0 < i → i ≠ p → h[i]? = some x → h[(i - 1) / 2]? = some y →
    freqOf y ≤ freqOf x

/-- Invariant of the descent phase of _siftup with a hole at position
pos: all parent-child pairs not involving pos hold, and both children of
pos are at least the element stored at the parent of pos. -/
def DownInv {α : Type} (h : List (Node α)) (pos : Nat) : Prop :=
  (∀ i x y, 0 < i → i ≠ pos → (i - 1) / 2 ≠ pos → h[i]? = some x →
    h[(i - 1) / 2]? = some y → freqOf y ≤ freqOf x) ∧
  (∀ c x pv, 0 < pos → (c = 2 * pos + 1 ∨ c = 2 * pos + 2) → h[c]? = some x →
    h[(pos - 1) / 2]? = some pv → freqOf pv ≤ freqOf x)

/-- Abstract trace of the merge loop on the multiset of heap weights:
while more than one weight remains, the two smallest weights a and b are
removed, their sum is inserted, and the cost a + b accrues. -/
inductive MinMergeCost : Multiset Nat → Nat → Prop where
  | single (w : Nat) : MinMergeCost {w} 0
  | step (W : Multiset Nat) (a b c : Nat) (ha : a ∈ W) (hb : b ∈ W.erase a)
      (hmina : ∀ x ∈ W, a ≤ x) (hminb : ∀ x ∈ W.erase a, b ≤ x)
      (hrec : MinMergeCost ((a + b) ::ₘ (W.erase a).erase b) c) :
      MinMergeCost W (c + (a + b))

/-- Kraft sum of a list of code lengths. -/
noncomputable def kraftSum (ls : List Nat) : ℝ :=
  (ls.map (fun l => ((1 : ℝ) / 2) ^ l)).sum

/-- Shannon code length for a symbol: the ceiling of log2(1/p) where
p = count/length.  Used as the competitor code in the upper entropy
bound. -/
noncomputable def shannonLen (t : List Char) (s : Char) : Nat :=
  (Int.ceil (Real.logb 2 ((t.length : ℝ) / (t.count s : ℝ)))).toNat

/-- Python division a / b, which raises ZeroDivisionError when b = 0.
Used to make the only partial operation of
calculate_first_order_entropy explicit. -/
noncomputable def pyDiv (a b : ℝ) : Except String ℝ :=
  if b = 0 then .error "ZeroDivisionError" else .ok (a / b)

/-- calculate_first_order_entropy with the partiality of Python division
made explicit: the loop body divides by len(text), the only operation of
the function that can raise.  np.log2 of a positive float and iteration
over the Counter are total. -/
noncomputable def calculate_first_order_entropy_div (t : List Char) : Except String ℝ := do
  let s ← (keys t).foldlM (fun acc sym => do
      let prob ← pyDiv (t.count sym : ℝ) (t.length : ℝ)
      pure (acc + prob * Real.logb 2 prob)) (0 : ℝ)
  pure (-s)

/-! ### Basic facts about keys (Counter key order) -/

theorem keysAux_mem {α : Type} [DecidableEq α] (a : α) (l : List α) :
    ∀ seen, a ∈ keysAux seen l ↔ a ∈ l ∧ a ∉ seen := by
  induction l with
  | nil => intro seen; simp [keysAux]
  | cons b bs ih =>
    intro seen
    by_cases hab : a = b
    · subst hab
      by_cases hb : a ∈ seen <;> simp [keysAux, hb, ih, List.mem_cons]
    · by_cases hb : b ∈ seen <;> simp [keysAux, hb, hab, ih, List.mem_cons]

theorem keys_mem {α : Type} [DecidableEq α] (a : α) (l : List α) :
    a ∈ keys l ↔ a ∈ l := by
  simp [keys, keysAux_mem]

theorem keysAux_nodup {α : Type} [DecidableEq α] (l : List α) :
    ∀ seen, (keysAux seen l).Nodup := by
  induction l with
  | nil => intro seen; simp [keysAux]
  | cons b bs ih =>
    intro seen
    by_cases hb : b ∈ seen
    · simpa [keysAux, hb] using ih seen
    · simp only [keysAux, if_neg hb, List.nodup_cons]
      exact ⟨fun hmem => ((keysAux_mem b bs (b :: seen)).mp hmem).2 (List.mem_cons_self b seen),
        ih (b :: seen)⟩

theorem keys_nodup {α : Type} [DecidableEq α] (l : List α) : (keys l).Nodup :=
  keysAux_nodup l []

theorem keys_perm_dedup {α : Type} [DecidableEq α] (l : List α) :
    (keys l).Perm l.dedup := by
  rw [List.perm_ext_iff_of_nodup (keys_nodup l) l.nodup_dedup]
  intro a
  rw [keys_mem, List.mem_dedup]

theorem keys_sum_count {α : Type} [DecidableEq α] (l : List α) :
    ((keys l).map (fun s => l.count s)).sum = l.length := by
  rw [((keys_perm_dedup l).map (fun s => l.count s)).sum_eq]
  exact List.sum_map_count_dedup_eq_length l

theorem keys_nil_iff {α : Type} [DecidableEq α] (l : List α) :
    keys l = [] ↔ l = [] := by
  constructor
  · intro h
    by_contra hne
    rcases List.exists_mem_of_ne_nil l hne with ⟨a, ha⟩
    have := (keys_mem a l).mpr ha
    simp [h] at this
  · rintro rfl; rfl

/-! ### Permutation helpers for List.set and join -/

theorem perm_flatten {α : Type} {l₁ l₂ : List (List α)} (h : l₁.Perm l₂) :
    l₁.flatten.Perm l₂.flatten := by
  induction h with
  | nil => exact .refl _
  | cons a _ ih => simpa using ih.append_left a
  | swap a b l =>
      simp only [List.flatten_cons]
      rw [← List.append_assoc, ← List.append_assoc]
      exact List.perm_append_comm.append_right _
  | trans _ _ ih₁ ih₂ => exact ih₁.trans ih₂

theorem set_perm_cons {α : Type} (a : α) :
    ∀ (l : List α) (i : Nat), i < l.length → (l.set i a).Perm (a :: l.eraseIdx i) := by
  intro l
  induction l with
  | nil => intro i hi; simp at hi
  | cons x xs ih =>
    intro i hi
    match i with
    | 0 => simp
    | j + 1 =>
      simp only [List.set_cons_succ, List.eraseIdx_cons_succ]
      exact ((ih j (by simpa using hi)).cons x).trans (List.Perm.swap a x _)

theorem perm_getD_cons_eraseIdx {α : Type} (d : α) :
    ∀ (l : List α) (i : Nat), i < l.length → l.Perm (l.getD i d :: l.eraseIdx i) := by
  intro l
  induction l with
  | nil => intro i hi; simp at hi
  | cons x xs ih =>
    intro i hi
    match i with
    | 0 => simp
    | j + 1 =>
      simp only [List.getD_cons_succ, List.eraseIdx_cons_succ]
      exact ((ih j (by simpa using hi)).cons x).trans (List.Perm.swap _ x _)

theorem set_set_perm {α : Type} (d a : α) :
    ∀ (l : List α) (i j : Nat), i < l.length → j < l.length → i ≠ j →
      ((l.set i (l.getD j d)).set j a).Perm (l.set i a) := by
  intro l
  induction l with
  | nil => intro i j hi; simp at hi
  | cons x xs ih =>
    intro i j hi hj hij
    match i, j with
    | 0, 0 => exact absurd rfl hij
    | 0, k + 1 =>
      simp only [List.getD_cons_succ, List.set_cons_zero, List.set_cons_succ]
      have h1 := set_perm_cons a xs k (by simpa using hj)
      refine ((h1.cons _).trans (List.Perm.swap a _ _)).trans ?_
      exact (((perm_getD_cons_eraseIdx d xs k (by simpa using hj)).symm).cons a)
    | k + 1, 0 =>
      simp only [List.getD_cons_zero, List.set_cons_succ, List.set_cons_zero]
      have h1 := set_perm_cons x xs k (by simpa using hi)
      have h2 := set_perm_cons a xs k (by simpa using hi)
      exact ((h1.cons a).trans (List.Perm.swap x a _)).trans ((h2.symm).cons x)
    | k + 1, m + 1 =>
      simp only [List.getD_cons_succ, List.set_cons_succ]
      exact (ih k m (by simpa using hi) (by simpa using hj) (by omega)).cons x

/-! ### Length and permutation behaviour of the heap operations -/

theorem siftdownFuel_length {α : Type} (item : Node α) :
    ∀ (fuel : Nat) (heap : List (Node α)) (s pos : Nat),
      (siftdownFuel fuel heap s pos item).length = heap.length := by
  intro fuel
  induction fuel with
  | zero => intro heap s pos; simp [siftdownFuel]
  | succ n ih =>
    intro heap s pos
    simp only [siftdownFuel]
    split_ifs <;> simp [ih]

theorem siftdownFuel_perm {α : Type} (item : Node α) :
    ∀ (fuel : Nat) (heap : List (Node α)) (s pos : Nat), pos < heap.length →
      (siftdownFuel fuel heap s pos item).Perm (heap.set pos item) := by
  intro fuel
  induction fuel with
  | zero => intro heap s pos _; exact .refl _
  | succ n ih =>
    intro heap s pos hpos
    simp only [siftdownFuel]
    split_ifs with h1 h2
    · have hpar : (pos - 1) / 2 < heap.length := by
        have : (pos - 1) / 2 ≤ pos - 1 := Nat.div_le_self _ _
        omega
      refine (ih _ s _ ?_).trans ?_
      · simpa using hpar
      · exact set_set_perm item item heap pos ((pos - 1) / 2) hpos hpar (by omega)
    · exact .refl _
    · exact .refl _

theorem siftupFuel_length {α : Type} (item : Node α) :
    ∀ (fuel : Nat) (heap : List (Node α)) (pos s : Nat),
      (siftupFuel fuel heap pos item s).length = heap.length := by
  intro fuel
  induction fuel with
  | zero => intro heap pos s; simp [siftupFuel, siftdownFuel_length]
  | succ n ih =>
    intro heap pos s
    simp only [siftupFuel]
    split_ifs <;> simp [ih, siftdownFuel_length]

theorem siftupFuel_perm {α : Type} (item : Node α) :
    ∀ (fuel : Nat) (heap : List (Node α)) (pos s : Nat), pos < heap.length →
      (siftupFuel fuel heap pos item s).Perm (heap.set pos item) := by
  intro fuel
  induction fuel with
  | zero =>
    intro heap pos s hpos
    have h := siftdownFuel_perm item pos (heap.set pos item) s pos (by simpa using hpos)
    rwa [List.set_set] at h
  | succ n ih =>
    intro heap pos s hpos
    simp only [siftupFuel]
    split_ifs with h1 h2
    · have hcp : 2 * pos + 2 < heap.length := h2.1
      refine (ih _ _ s ?_).trans ?_
      · simpa using hcp
      · exact set_set_perm item item heap pos (2 * pos + 2) hpos hcp (by omega)
    · have hcp : 2 * pos + 1 < heap.length := h1
      refine (ih _ _ s ?_).trans ?_
      · simpa using hcp
      · exact set_set_perm item item heap pos (2 * pos + 1) hpos hcp (by omega)
    · have h := siftdownFuel_perm item pos (heap.set pos item) s pos (by simpa using hpos)
      rwa [List.set_set] at h

theorem set_append_length {α : Type} (x y : α) :
    ∀ (l : List α), (l ++ [y]).set l.length x = l ++ [x] := by
  intro l
  induction l with
  | nil => rfl
  | cons a t ih => simp [ih]

theorem heappush_length {α : Type} (heap : List (Node α)) (item : Node α) :
    (heappush heap item).length = heap.length + 1 := by
  simp [heappush, siftdownFuel_length]

theorem heappush_perm {α : Type} (heap : List (Node α)) (item : Node α) :
    (heappush heap item).Perm (item :: heap) := by
  refine (siftdownFuel_perm item heap.length (heap ++ [item]) 0 heap.length (by simp)).trans ?_
  rw [set_append_length]
  exact List.perm_append_singleton item heap

theorem heappop_of_ne_nil {α : Type} (heap : List (Node α)) (h : heap ≠ []) :
    ∃ p, heappop heap = some p := by
  unfold heappop
  rw [List.getLast?_eq_getLast heap h]
  cases hd : heap.dropLast with
  | nil => exact ⟨_, rfl⟩
  | cons z zs => exact ⟨_, rfl⟩

theorem heappop_nil {α : Type} : heappop ([] : List (Node α)) = none := rfl

theorem heappop_length {α : Type} {heap h' : List (Node α)} {x : Node α}
    (h : heappop heap = some (x, h')) : h'.length + 1 = heap.length := by
  rcases List.eq_nil_or_concat heap with rfl | ⟨ys, gl, rfl⟩
  · simp [heappop] at h
  · rw [List.concat_eq_append] at h ⊢
    unfold heappop at h
    rw [List.getLast?_concat] at h
    rw [List.dropLast_concat] at h
    cases hys : ys with
    | nil => subst hys; simp_all
    | cons z zs =>
      subst hys
      simp only [Option.some.injEq, Prod.mk.injEq] at h
      rcases h with ⟨rfl, rfl⟩
      simp [siftupFuel_length]

theorem heappop_perm {α : Type} {heap h' : List (Node α)} {x : Node α}
    (h : heappop heap = some (x, h')) : heap.Perm (x :: h') := by
  rcases List.eq_nil_or_concat heap with rfl | ⟨ys, gl, rfl⟩
  · simp [heappop] at h
  · rw [List.concat_eq_append] at h ⊢
    unfold heappop at h
    rw [List.getLast?_concat, List.dropLast_concat] at h
    cases hys : ys with
    | nil =>
      subst hys
      simp only [Option.some.injEq, Prod.mk.injEq] at h
      rcases h with ⟨rfl, rfl⟩
      simp
    | cons z zs =>
      subst hys
      simp only [Option.some.injEq, Prod.mk.injEq] at h
      rcases h with ⟨rfl, rfl⟩
      have hs : (siftupFuel (gl :: zs).length (gl :: zs) 0 gl 0).Perm (gl :: zs) := by
        have := siftupFuel_perm gl (gl :: zs).length (gl :: zs) 0 0 (by simp)
        simpa using this
      refine List.Perm.trans ?_ ((hs.symm).cons z)
      exact (List.perm_append_singleton gl zs).cons z

/-! ### The merge loop: length, membership and leaf bookkeeping -/

theorem setHuff_leafSyms {α : Type} (n : Node α) (h : List Char) :
    leafSyms (setHuff n h) = leafSyms n := by cases n <;> rfl

theorem setHuff_leafFreqs {α : Type} (n : Node α) (h : List Char) :
    leafFreqs (setHuff n h) = leafFreqs n := by cases n <;> rfl

theorem setHuff_freqOf {α : Type} (n : Node α) (h : List Char) :
    freqOf (setHuff n h) = freqOf n := by cases n <;> rfl

theorem setHuff_depthCost {α : Type} (n : Node α) (h : List Char) :
    depthCost (setHuff n h) = depthCost n := by cases n <;> rfl

theorem setHuff_wellFormed {α : Type} (n : Node α) (h : List Char) :
    wellFormed (setHuff n h) = wellFormed n := by cases n <;> rfl

theorem mergeLoopF_zero {α : Type} (combine : α → α → α) (nodes : List (Node α)) :
    mergeLoopF combine 0 nodes = nodes := rfl

theorem mergeLoopF_succ_stop {α : Type} (combine : α → α → α) (k : Nat)
    {nodes : List (Node α)} (h1 : ¬ 1 < nodes.length) :
    mergeLoopF combine (k + 1) nodes = nodes := by
  simp only [mergeLoopF, if_neg h1]

theorem mergeLoopF_succ_step {α : Type} (combine : α → α → α) (k : Nat)
    {nodes rest rest2 : List (Node α)} {left right : Node α}
    (h1 : 1 < nodes.length) (hpop : heappop nodes = some (left, rest))
    (hpop2 : heappop rest = some (right, rest2)) :
    mergeLoopF combine (k + 1) nodes = mergeLoopF combine k
      (heappush rest2 (Node.internal (freqOf left + freqOf right)
        (combine (symbolOf left) (symbolOf right))
        (setHuff left ['0']) (setHuff right ['1']) [])) := by
  simp only [mergeLoopF, if_pos h1, hpop, hpop2]

theorem mergeLoopF_length_one {α : Type} (combine : α → α → α) :
    ∀ (fuel : Nat) (nodes : List (Node α)), nodes ≠ [] → nodes.length ≤ fuel + 1 →
      (mergeLoopF combine fuel nodes).length = 1 := by
  intro fuel
  induction fuel with
  | zero =>
    intro nodes hne hlen
    rw [mergeLoopF_zero]
    cases nodes with
    | nil => exact absurd rfl hne
    | cons x xs => simp only [List.length_cons] at hlen ⊢; omega
  | succ k ih =>
    intro nodes hne hlen
    by_cases h1 : 1 < nodes.length
    · obtain ⟨⟨left, rest⟩, hpop⟩ := heappop_of_ne_nil nodes hne
      have hrl : rest.length + 1 = nodes.length := heappop_length hpop
      have hrest_ne : rest ≠ [] := by
        intro hcon; rw [hcon] at hrl; simp at hrl; omega
      obtain ⟨⟨right, rest2⟩, hpop2⟩ := heappop_of_ne_nil rest hrest_ne
      have hr2 : rest2.length + 1 = rest.length := heappop_length hpop2
      rw [mergeLoopF_succ_step combine k h1 hpop hpop2]
      apply ih
      · exact List.length_pos.mp (by rw [heappush_length]; omega)
      · rw [heappush_length]; omega
    · rw [mergeLoopF_succ_stop combine k h1]
      cases nodes with
      | nil => exact absurd rfl hne
      | cons x xs => simp only [List.length_cons] at h1 ⊢; omega

theorem mergeLoopF_pres {α : Type} (combine : α → α → α) (Q : Node α → Prop)
    (hQ : ∀ l r, Q l → Q r → Q (Node.internal (freqOf l + freqOf r)
        (combine (symbolOf l) (symbolOf r)) (setHuff l ['0']) (setHuff r ['1']) [])) :
    ∀ (fuel : Nat) (nodes : List (Node α)), (∀ n ∈ nodes, Q n) →
      ∀ n ∈ mergeLoopF combine fuel nodes, Q n := by
  intro fuel
  induction fuel with
  | zero => intro nodes hall; exact hall
  | succ k ih =>
    intro nodes hall
    by_cases h1 : 1 < nodes.length
    · have hne : nodes ≠ [] := by intro hcon; rw [hcon] at h1; simp at h1
      obtain ⟨⟨left, rest⟩, hpop⟩ := heappop_of_ne_nil nodes hne
      have hrl : rest.length + 1 = nodes.length := heappop_length hpop
      have hrest_ne : rest ≠ [] := by
        intro hcon; rw [hcon] at hrl; simp at hrl; omega
      obtain ⟨⟨right, rest2⟩, hpop2⟩ := heappop_of_ne_nil rest hrest_ne
      have hmem_rest : ∀ n ∈ rest, n ∈ nodes := fun n hn =>
        (heappop_perm hpop).mem_iff.mpr (List.mem_cons_of_mem _ hn)
      have hleft : left ∈ nodes :=
        (heappop_perm hpop).mem_iff.mpr (List.mem_cons_self _ _)
      have hmem_rest2 : ∀ n ∈ rest2, n ∈ rest := fun n hn =>
        (heappop_perm hpop2).mem_iff.mpr (List.mem_cons_of_mem _ hn)
      have hright : right ∈ rest :=
        (heappop_perm hpop2).mem_iff.mpr (List.mem_cons_self _ _)
      rw [mergeLoopF_succ_step combine k h1 hpop hpop2]
      apply ih
      intro n hn
      rcases List.mem_cons.mp ((heappush_perm _ _).mem_iff.mp hn) with rfl | hn2
      · exact hQ left right (hall _ hleft) (hall _ (hmem_rest _ hright))
      · exact hall _ (hmem_rest _ (hmem_rest2 _ hn2))
    · rw [mergeLoopF_succ_stop combine k h1]
      exact hall

theorem mergeLoopF_flatten_perm {α β : Type} (combine : α → α → α) (g : Node α → List β)
    (hset : ∀ n h, g (setHuff n h) = g n)
    (hint : ∀ f s l r h, g (.internal f s l r h) = g l ++ g r) :
    ∀ (fuel : Nat) (nodes : List (Node α)),
      ((mergeLoopF combine fuel nodes).map g).flatten.Perm ((nodes.map g).flatten) := by
  intro fuel
  induction fuel with
  | zero => intro nodes; exact .refl _
  | succ k ih =>
    intro nodes
    by_cases h1 : 1 < nodes.length
    · have hne : nodes ≠ [] := by intro hcon; rw [hcon] at h1; simp at h1
      obtain ⟨⟨left, rest⟩, hpop⟩ := heappop_of_ne_nil nodes hne
      have hrl : rest.length + 1 = nodes.length := heappop_length hpop
      have hrest_ne : rest ≠ [] := by
        intro hcon; rw [hcon] at hrl; simp at hrl; omega
      obtain ⟨⟨right, rest2⟩, hpop2⟩ := heappop_of_ne_nil rest hrest_ne
      rw [mergeLoopF_succ_step combine k h1 hpop hpop2]
      refine (ih _).trans ?_
      have hpush := perm_flatten ((heappush_perm rest2
        (Node.internal (freqOf left + freqOf right)
          (combine (symbolOf left) (symbolOf right))
          (setHuff left ['0']) (setHuff right ['1']) [])).map g)
      refine hpush.trans ?_
      have p1 := perm_flatten ((heappop_perm hpop).map g)
      have p2 := perm_flatten ((heappop_perm hpop2).map g)
      simp only [List.map_cons, List.flatten_cons] at p1 p2 ⊢
      rw [hint, hset, hset, List.append_assoc]
      refine .trans ?_ p1.symm
      exact (p2.symm).append_left (g left)
    · rw [mergeLoopF_succ_stop combine k h1]

/-! ### Code extraction: accumulator behaviour, prefix structure -/

theorem setHuff_huffOf {α : Type} (n : Node α) (h : List Char) :
    huffOf (setHuff n h) = h := by cases n <;> rfl

theorem setHuff_goodHuff {α : Type} (n : Node α) (h : List Char) :
    goodHuff (setHuff n h) = goodHuff n := by cases n <;> rfl

theorem setHuff_leafFreqCnt (t : List Char) (n : Node (List Char)) (h : List Char) :
    leafFreqCnt t (setHuff n h) ↔ leafFreqCnt t n := by cases n <;> rfl

theorem extract_eq_codesOf {α : Type} :
    ∀ (n : Node α) (code : List Char) (acc : List (α × List Char)),
      extract_huffman_codes n code acc = acc ++ codesOf n code := by
  intro n
  induction n with
  | leaf f s h => intro code acc; rfl
  | internal f s l r h ihl ihr =>
    intro code acc
    simp [extract_huffman_codes, codesOf, ihl, ihr, List.append_assoc]

theorem codesOf_map_fst {α : Type} :
    ∀ (n : Node α) (code : List Char), (codesOf n code).map Prod.fst = leafSyms n := by
  intro n
  induction n with
  | leaf f s h => intro code; rfl
  | internal f s l r h ihl ihr => intro code; simp [codesOf, leafSyms, ihl, ihr]

theorem codesOf_prefix {α : Type} :
    ∀ (n : Node α) (code : List Char), ∀ p ∈ codesOf n code, (code ++ huffOf n) <+: p.2 := by
  intro n
  induction n with
  | leaf f s h =>
    intro code p hp
    simp only [codesOf, List.mem_singleton] at hp
    subst hp
    exact List.prefix_rfl
  | internal f s l r h ihl ihr =>
    intro code p hp
    simp only [codesOf, List.mem_append] at hp
    rcases hp with hp | hp
    · exact (List.prefix_append _ _).trans (ihl _ p hp)
    · exact (List.prefix_append _ _).trans (ihr _ p hp)

theorem branch_incomp (a : List Char) (c d : Char) (hcd : c ≠ d) (x y : List Char)
    (hx : a ++ [c] <+: x) (hy : a ++ [d] <+: y) : ¬ x <+: y := by
  intro hxy
  have hx2 : a ++ [c] <+: y := hx.trans hxy
  rcases List.prefix_or_prefix_of_prefix hx2 hy with h | h
  · have heq := h.eq_of_length (by simp)
    simp at heq
    exact hcd heq
  · have heq := h.eq_of_length (by simp)
    simp at heq
    exact hcd heq.symm

theorem codesOf_pairwise {α : Type} :
    ∀ (n : Node α), goodHuff n = true → ∀ code,
      (codesOf n code).Pairwise (fun p q => ¬ p.2 <+: q.2 ∧ ¬ q.2 <+: p.2) := by
  intro n
  induction n with
  | leaf f s h => intro _ code; simp [codesOf]
  | internal f s l r h ihl ihr =>
    intro hg code
    simp only [goodHuff, Bool.and_eq_true, beq_iff_eq] at hg
    obtain ⟨⟨⟨hl0, hr1⟩, gl⟩, gr⟩ := hg
    rw [codesOf, List.pairwise_append]
    refine ⟨ihl gl _, ihr gr _, ?_⟩
    intro p hp q hq
    have hpp := codesOf_prefix l (code ++ h) p hp
    have hqq := codesOf_prefix r (code ++ h) q hq
    rw [hl0] at hpp
    rw [hr1] at hqq
    exact ⟨branch_incomp (code ++ h) '0' '1' (by decide) _ _ hpp hqq,
      branch_incomp (code ++ h) '1' '0' (by decide) _ _ hqq hpp⟩

/-! ### The heap of initial leaves and the final root -/

theorem foldl_heappush_perm {α γ : Type} (mk : γ → Node α) :
    ∀ (ks : List γ) (init : List (Node α)),
      (ks.foldl (fun ns k => heappush ns (mk k)) init).Perm (ks.map mk ++ init) := by
  intro ks
  induction ks with
  | nil => intro init; simp
  | cons a as ih =>
    intro init
    simp only [List.foldl_cons, List.map_cons, List.cons_append]
    refine (ih _).trans ?_
    refine ((heappush_perm init (mk a)).append_left _).trans ?_
    exact List.perm_middle

theorem buildLeafHeap_perm (t : List Char) :
    (buildLeafHeap t).Perm ((keys t).map (fun s => Node.leaf (t.count s) [s] [])) := by
  have h := foldl_heappush_perm (fun s => Node.leaf (t.count s) [s] ([] : List Char)) (keys t) []
  simpa [buildLeafHeap] using h

theorem buildLeafHeap_length (t : List Char) :
    (buildLeafHeap t).length = (keys t).length := by
  rw [(buildLeafHeap_perm t).length_eq]
  simp

theorem flatten_singleton_map {β γ : Type} (f : γ → β) :
    ∀ (l : List γ), (l.map (fun x => [f x])).flatten = l.map f := by
  intro l
  induction l with
  | nil => rfl
  | cons a as ih => simp [ih]

theorem mergeLoop_root_exists (t : List Char) (hne : t ≠ []) :
    ∃ root, mergeLoopF combineStr (buildLeafHeap t).length (buildLeafHeap t) = [root] := by
  have hk : keys t ≠ [] := fun h => hne ((keys_nil_iff t).mp h)
  have hlen : 0 < (buildLeafHeap t).length := by
    rw [buildLeafHeap_length]
    exact List.length_pos.mpr hk
  have h1 := mergeLoopF_length_one combineStr (buildLeafHeap t).length (buildLeafHeap t)
    (List.length_pos.mp hlen) (by omega)
  cases hr : mergeLoopF combineStr (buildLeafHeap t).length (buildLeafHeap t) with
  | nil => rw [hr] at h1; simp at h1
  | cons root rest =>
    rw [hr] at h1
    simp only [List.length_cons, Nat.add_left_eq_self, List.length_eq_zero] at h1
    exact ⟨root, by rw [h1]⟩

theorem mergeLoop_root_goodHuff {t : List Char} {root : Node (List Char)}
    (hr : mergeLoopF combineStr (buildLeafHeap t).length (buildLeafHeap t) = [root]) :
    goodHuff root = true := by
  have hall : ∀ n ∈ buildLeafHeap t, goodHuff n = true := by
    intro n hn
    rcases List.mem_map.mp ((buildLeafHeap_perm t).mem_iff.mp hn) with ⟨s, _, rfl⟩
    rfl
  have := mergeLoopF_pres combineStr (fun n => goodHuff n = true)
    (fun l r hl hr2 => by
      simp [goodHuff, setHuff_huffOf, setHuff_goodHuff, hl, hr2])
    (buildLeafHeap t).length (buildLeafHeap t) hall root (by rw [hr]; exact List.mem_singleton_self root)
  exact this

theorem mergeLoop_root_wellFormed {t : List Char} {root : Node (List Char)}
    (hr : mergeLoopF combineStr (buildLeafHeap t).length (buildLeafHeap t) = [root]) :
    wellFormed root = true := by
  have hall : ∀ n ∈ buildLeafHeap t, wellFormed n = true := by
    intro n hn
    rcases List.mem_map.mp ((buildLeafHeap_perm t).mem_iff.mp hn) with ⟨s, _, rfl⟩
    rfl
  exact mergeLoopF_pres combineStr (fun n => wellFormed n = true)
    (fun l r hl hr2 => by
      simp [wellFormed, setHuff_freqOf, setHuff_wellFormed, hl, hr2])
    (buildLeafHeap t).length (buildLeafHeap t) hall root (by rw [hr]; exact List.mem_singleton_self root)

theorem mergeLoop_root_huff_nil {t : List Char} {root : Node (List Char)}
    (hr : mergeLoopF combineStr (buildLeafHeap t).length (buildLeafHeap t) = [root]) :
    huffOf root = [] := by
  have hall : ∀ n ∈ buildLeafHeap t, huffOf n = [] := by
    intro n hn
    rcases List.mem_map.mp ((buildLeafHeap_perm t).mem_iff.mp hn) with ⟨s, _, rfl⟩
    rfl
  exact mergeLoopF_pres combineStr (fun n => huffOf n = [])
    (fun l r _ _ => rfl)
    (buildLeafHeap t).length (buildLeafHeap t) hall root (by rw [hr]; exact List.mem_singleton_self root)

theorem mergeLoop_root_leafFreqCnt {t : List Char} {root : Node (List Char)}
    (hr : mergeLoopF combineStr (buildLeafHeap t).length (buildLeafHeap t) = [root]) :
    leafFreqCnt t root := by
  have hall : ∀ n ∈ buildLeafHeap t, leafFreqCnt t n := by
    intro n hn
    rcases List.mem_map.mp ((buildLeafHeap_perm t).mem_iff.mp hn) with ⟨s, _, rfl⟩
    simp [leafFreqCnt, counterLookup]
  exact mergeLoopF_pres combineStr (leafFreqCnt t)
    (fun l r hl hr2 => ⟨(setHuff_leafFreqCnt t l _).mpr hl, (setHuff_leafFreqCnt t r _).mpr hr2⟩)
    (buildLeafHeap t).length (buildLeafHeap t) hall root (by rw [hr]; exact List.mem_singleton_self root)

theorem mergeLoop_root_leafSyms {t : List Char} {root : Node (List Char)}
    (hr : mergeLoopF combineStr (buildLeafHeap t).length (buildLeafHeap t) = [root]) :
    (leafSyms root).Perm ((keys t).map (fun c => [c])) := by
  have h := mergeLoopF_flatten_perm combineStr leafSyms setHuff_leafSyms
    (fun f s l r h => rfl) (buildLeafHeap t).length (buildLeafHeap t)
  rw [hr] at h
  simp only [List.map_cons, List.map_nil, List.flatten_cons, List.flatten_nil,
    List.append_nil] at h
  refine h.trans ?_
  refine (perm_flatten ((buildLeafHeap_perm t).map leafSyms)).trans ?_
  rw [List.map_map]
  have : (leafSyms ∘ fun s => Node.leaf (t.count s) [s] ([] : List Char)) =
      fun s => [[s]] := by
    funext s; rfl
  rw [this, flatten_singleton_map]

theorem generate_eq_codesOf {t : List Char} {root : Node (List Char)}
    (hr : mergeLoopF combineStr (buildLeafHeap t).length (buildLeafHeap t) = [root]) :
    generate_huffman_codes t = codesOf root [] := by
  unfold generate_huffman_codes generate_huffman_codes_g
  simp only [hr]
  rw [extract_eq_codesOf]
  simp

/-- C2: for every non-empty text, generate_huffman_codes called on fresh
state yields exactly one code per distinct input symbol (the first
components are a permutation of the distinct symbols of the text, as
one-character strings), and the code table is prefix-free: for entries
with distinct symbols neither code is a prefix of the other. -/
theorem huffman_codes_complete_and_prefix_free (t : List Char) (hne : t ≠ []) :
    ((generate_huffman_codes t).map Prod.fst).Perm ((keys t).map (fun c => [c])) ∧
    ∀ p ∈ generate_huffman_codes t, ∀ q ∈ generate_huffman_codes t,
      p.1 ≠ q.1 → ¬ p.2 <+: q.2 := by
  obtain ⟨root, hr⟩ := mergeLoop_root_exists t hne
  rw [generate_eq_codesOf hr]
  constructor
  · rw [codesOf_map_fst]
    exact mergeLoop_root_leafSyms hr
  · have hpw := codesOf_pairwise root (mergeLoop_root_goodHuff hr) []
    intro p hp q hq hne2
    have hpq : p ≠ q := fun h => hne2 (by rw [h])
    have hsym : Symmetric (fun p q : (List Char × List Char) =>
        ¬ p.2 <+: q.2 ∧ ¬ q.2 <+: p.2) := fun a b hab => ⟨hab.2, hab.1⟩
    exact (List.Pairwise.forall hsym hpw hp hq hpq).1

/-- Witness for C2 at the concrete text AB. -/
theorem huffman_codes_complete_and_prefix_free_witness :
    (['A', 'B'] : List Char) ≠ [] ∧
    (((generate_huffman_codes ['A', 'B']).map Prod.fst).Perm
        ((keys ['A', 'B']).map (fun c => [c])) ∧
      ∀ p ∈ generate_huffman_codes ['A', 'B'], ∀ q ∈ generate_huffman_codes ['A', 'B'],
        p.1 ≠ q.1 → ¬ p.2 <+: q.2) :=
  ⟨by decide, huffman_codes_complete_and_prefix_free ['A', 'B'] (by decide)⟩

/-- C9: for every non-empty text the merge loop terminates with a single
root whose tree satisfies the structural invariant: every internal node's
frequency is the sum of its two children's frequencies (wellFormed; note
that the Node type itself mirrors the two construction sites of the
source, so every node has 0 or 2 children by construction), and the
leaves carry exactly the distinct input symbols, one each. -/
theorem huffman_tree_invariants (t : List Char) (hne : t ≠ []) :
    ∃ root, mergeLoopF combineStr (buildLeafHeap t).length (buildLeafHeap t) = [root] ∧
      wellFormed root = true ∧
      (leafSyms root).Perm ((keys t).map (fun c => [c])) := by
  obtain ⟨root, hr⟩ := mergeLoop_root_exists t hne
  exact ⟨root, hr, mergeLoop_root_wellFormed hr, mergeLoop_root_leafSyms hr⟩

/-- Witness for C9 at the concrete text AB. -/
theorem huffman_tree_invariants_witness :
    (['A', 'B'] : List Char) ≠ [] ∧
    (∃ root, mergeLoopF combineStr (buildLeafHeap ['A', 'B']).length
        (buildLeafHeap ['A', 'B']) = [root] ∧
      wellFormed root = true ∧
      (leafSyms root).Perm ((keys ['A', 'B']).map (fun c => [c]))) :=
  ⟨by decide, huffman_tree_invariants ['A', 'B'] (by decide)⟩

theorem nodup_all_eq {α : Type} {l : List α} {c : α} (hd : l.Nodup) (h : ∀ x ∈ l, x = c)
    (hc : c ∈ l) : l = [c] := by
  cases l with
  | nil => simp at hc
  | cons a as =>
    have ha : a = c := h a (List.mem_cons_self _ _)
    subst ha
    cases as with
    | nil => rfl
    | cons b bs =>
      have hb : b = a := h b (by simp)
      rw [List.nodup_cons] at hd
      exact absurd (by simp [hb]) hd.1

theorem keys_of_constant {c : Char} {t : List Char} (hne : t ≠ []) (hc : ∀ x ∈ t, x = c) :
    keys t = [c] := by
  obtain ⟨x, hx⟩ := List.exists_mem_of_ne_nil t hne
  have hcin : c ∈ t := (hc x hx) ▸ hx
  exact nodup_all_eq (keys_nodup t) (fun a ha => hc a ((keys_mem a t).mp ha))
    ((keys_mem c t).mpr hcin)

/-- C7: for every non-empty text whose characters are all equal to c, the
leaf heap holds the single leaf (with frequency = text length), the merge
loop returns it unchanged (the while loop never executes), the code table
maps c to the empty bit string, and both the average codeword length and
the first-order entropy are 0. -/
theorem degenerate_single_symbol (t : List Char) (c : Char) (hne : t ≠ [])
    (hc : ∀ x ∈ t, x = c) :
    buildLeafHeap t = [Node.leaf t.length [c] []] ∧
    mergeLoopF combineStr (buildLeafHeap t).length (buildLeafHeap t) = buildLeafHeap t ∧
    generate_huffman_codes t = [([c], [])] ∧
    calculate_average_codeword_length t = 0 ∧
    calculate_first_order_entropy t = 0 := by
  have hk := keys_of_constant hne hc
  have hcount : t.count c = t.length := by
    rw [List.count_eq_length]
    intro b hb
    exact (hc b hb).symm
  have hbuild : buildLeafHeap t = [Node.leaf t.length [c] []] := by
    unfold buildLeafHeap
    rw [hk]
    simp [heappush, siftdownFuel, hcount]
  have hmerge : mergeLoopF combineStr (buildLeafHeap t).length (buildLeafHeap t) =
      buildLeafHeap t := by
    rw [hbuild]
    exact mergeLoopF_succ_stop combineStr 0 (by simp)
  have hm1 : mergeLoopF combineStr 1 [Node.leaf t.length [c] []] =
      [Node.leaf t.length [c] []] :=
    mergeLoopF_succ_stop combineStr 0 (by simp)
  have hgen : generate_huffman_codes t = [([c], [])] := by
    unfold generate_huffman_codes generate_huffman_codes_g
    simp only [hbuild, List.length_cons, List.length_nil, hm1]
    simp [extract_huffman_codes]
  have havg : calculate_average_codeword_length t = 0 := by
    unfold calculate_average_codeword_length
    rw [hgen]
    simp
  have hent : calculate_first_order_entropy t = 0 := by
    have hn0 : (t.length : ℝ) ≠ 0 :=
      Nat.cast_ne_zero.mpr (fun h => hne (List.length_eq_zero.mp h))
    unfold calculate_first_order_entropy
    rw [hk]
    simp only [List.map_cons, List.map_nil, List.sum_cons, List.sum_nil, hcount]
    rw [div_self hn0]
    simp
  exact ⟨hbuild, hmerge, hgen, havg, hent⟩

/-- Witness for C7 at the concrete text AAAA. -/
theorem degenerate_single_symbol_witness :
    ((['A', 'A', 'A', 'A'] : List Char) ≠ [] ∧ ∀ x ∈ (['A', 'A', 'A', 'A'] : List Char), x = 'A') ∧
    (buildLeafHeap ['A', 'A', 'A', 'A'] = [Node.leaf 4 ['A'] []] ∧
      mergeLoopF combineStr (buildLeafHeap ['A', 'A', 'A', 'A']).length
        (buildLeafHeap ['A', 'A', 'A', 'A']) = buildLeafHeap ['A', 'A', 'A', 'A'] ∧
      generate_huffman_codes ['A', 'A', 'A', 'A'] = [(['A'], [])] ∧
      calculate_average_codeword_length ['A', 'A', 'A', 'A'] = 0 ∧
      calculate_first_order_entropy ['A', 'A', 'A', 'A'] = 0) :=
  ⟨⟨by decide, by decide⟩,
    degenerate_single_symbol ['A', 'A', 'A', 'A'] 'A' (by decide) (by decide)⟩

/-! ### C3: empty input returns 0 instead of signalling an error -/

/-- Counterexample for C3: on the empty string, the entropy computation
with Python's division partiality made explicit returns the value 0:
the Counter is empty, the loop body (and with it the only division)
never executes, so no error of any kind is raised. -/
theorem empty_text_entropy_returns_value :
    calculate_first_order_entropy_div [] = Except.ok 0 := by
  have h : calculate_first_order_entropy_div [] = Except.ok (-(0 : ℝ)) := rfl
  rw [h, neg_zero]

/-- Amended C3: for every text (the empty one included), the first-order
entropy computation completes normally and returns the value of
calculate_first_order_entropy; it never signals an error, because the
division by len(text) is only ever evaluated for a key of the Counter,
which requires a non-empty text. -/
theorem entropy_div_never_fails (t : List Char) :
    calculate_first_order_entropy_div t = Except.ok (calculate_first_order_entropy t) := by
  rcases eq_or_ne t [] with rfl | hne
  · simpa [calculate_first_order_entropy] using empty_text_entropy_returns_value
  · have hn : (t.length : ℝ) ≠ 0 :=
      Nat.cast_ne_zero.mpr (fun h => hne (List.length_eq_zero.mp h))
    have hfold : ∀ (ks : List Char) (acc : ℝ),
        (ks.foldlM (fun acc sym => do
          let prob ← pyDiv (t.count sym : ℝ) (t.length : ℝ)
          pure (acc + prob * Real.logb 2 prob)) acc : Except String ℝ) =
        Except.ok (acc + ((ks.map (fun s => ((t.count s : ℝ) / (t.length : ℝ)) *
          Real.logb 2 ((t.count s : ℝ) / (t.length : ℝ)))).sum)) := by
      intro ks
      induction ks with
      | nil =>
        intro acc
        simp only [List.foldlM_nil, List.map_nil, List.sum_nil, add_zero]
        rfl
      | cons a as ih =>
        intro acc
        rw [List.foldlM_cons]
        have hdiv : pyDiv (t.count a : ℝ) (t.length : ℝ) =
            Except.ok ((t.count a : ℝ) / (t.length : ℝ)) := by
          simp [pyDiv, hn]
        rw [hdiv]
        show (as.foldlM _ (acc + _) : Except String ℝ) = _
        rw [ih]
        simp [add_assoc]
    unfold calculate_first_order_entropy_div calculate_first_order_entropy
    rw [hfold]
    show Except.ok _ = _
    simp

/-! ### C4: the shared mutable default accumulator across calls -/

/-- C4 fails on the code: extract_huffman_codes uses a mutable default
argument codes_list=[] created once at function definition time, and
generate_huffman_codes calls it without passing a list.  The first call
on the text AB returns the two expected codes, but a second call in the
same process returns a four-entry list carrying over both entries of the
first call.  This theorem evaluates both calls with the shared
accumulator threaded explicitly. -/
theorem shared_accumulator_across_calls :
    (generate_huffman_codes_g [] ['A', 'B']).1 = [(['A'], ['0']), (['B'], ['1'])] ∧
    (generate_huffman_codes_g (generate_huffman_codes_g [] ['A', 'B']).2 ['A', 'B']).1 =
      [(['A'], ['0']), (['B'], ['1']), (['A'], ['0']), (['B'], ['1'])] := by decide

/-! ### C6: equal-frequency ties are not broken by insertion order -/

/-- Counterexample for C6: for text ABCD the four leaves (all of
frequency 1) are pushed in insertion order A, B, C, D, and the heap list
after the pushes is exactly [A, B, C, D].  The first extraction returns
the A leaf, but the second extraction returns the C leaf although the B
leaf was inserted earlier with equal frequency, so equal-frequency nodes
are not extracted in insertion order. -/
theorem tie_break_not_insertion_order :
    buildLeafHeap ['A', 'B', 'C', 'D'] =
      [Node.leaf 1 ['A'] [], Node.leaf 1 ['B'] [], Node.leaf 1 ['C'] [], Node.leaf 1 ['D'] []] ∧
    (heappop (buildLeafHeap ['A', 'B', 'C', 'D'])).map Prod.fst = some (Node.leaf 1 ['A'] []) ∧
    ((heappop (buildLeafHeap ['A', 'B', 'C', 'D'])).bind (fun p => heappop p.2)).map Prod.fst =
      some (Node.leaf 1 ['C'] []) ∧
    (Node.leaf 1 ['C'] ([] : List Char)) ≠ Node.leaf 1 ['B'] [] := by decide

/-- Amended C6: node comparison is by frequency alone, and among
equal-frequency nodes the extraction order is determined by the heap's
sift mechanics on array positions, not by insertion order; the output is
still a deterministic function of the text.  For ABCD the pop order is
A, C, B, D, which pairs A with C and B with D in the code table. -/
theorem tie_break_deterministic_heap_order :
    generate_huffman_codes ['A', 'B', 'C', 'D'] =
      [(['A'], ['0', '0']), (['C'], ['0', '1']), (['B'], ['1', '0']), (['D'], ['1', '1'])] := by
  decide

/-! ### C10: entropies are non-negative -/

theorem entropy_term_sum_nonneg {β : Type} (ks : List β) (cnt : β → Nat) (n : Nat)
    (hcnt : ∀ s ∈ ks, cnt s ≤ n) :
    0 ≤ -((ks.map (fun s => ((cnt s : ℝ) / (n : ℝ)) *
      Real.logb 2 ((cnt s : ℝ) / (n : ℝ)))).sum) := by
  rw [neg_nonneg]
  have hle : ∀ s ∈ ks, ((cnt s : ℝ) / (n : ℝ)) *
      Real.logb 2 ((cnt s : ℝ) / (n : ℝ)) ≤ (fun _ => (0 : ℝ)) s := by
    intro s hs
    have hp0 : (0 : ℝ) ≤ (cnt s : ℝ) / (n : ℝ) :=
      div_nonneg (Nat.cast_nonneg _) (Nat.cast_nonneg _)
    have hp1 : (cnt s : ℝ) / (n : ℝ) ≤ 1 := by
      rcases Nat.eq_zero_or_pos n with rfl | hn
      · simp
      · rw [div_le_one (by exact_mod_cast hn)]
        exact_mod_cast hcnt s hs
    exact mul_nonpos_of_nonneg_of_nonpos hp0 (Real.logb_nonpos (by norm_num) hp0 hp1)
  calc (ks.map (fun s => ((cnt s : ℝ) / (n : ℝ)) *
      Real.logb 2 ((cnt s : ℝ) / (n : ℝ)))).sum
      ≤ (ks.map (fun _ => (0 : ℝ))).sum := List.sum_le_sum hle
    _ = 0 := by simp

/-- C10: for every non-empty text, the first-order and the second-order
entropy are non-negative: every probability p lies in (0, 1], so every
term p * log2 p is non-positive and the negated sum is non-negative. -/
theorem entropies_nonneg (t : List Char) (hne : t ≠ []) :
    0 ≤ calculate_first_order_entropy t ∧ 0 ≤ calculate_second_order_entropy t := by
  constructor
  · exact entropy_term_sum_nonneg (keys t) (fun s => t.count s) t.length
      (fun s _ => List.count_le_length s t)
  · unfold calculate_second_order_entropy
    exact div_nonneg (entropy_term_sum_nonneg (keys (chunks t))
      (fun p => (chunks t).count p) (chunks t).length
      (fun p _ => List.count_le_length p (chunks t))) (by norm_num)

/-- Witness for C10 at the concrete text A. -/
theorem entropies_nonneg_witness :
    (['A'] : List Char) ≠ [] ∧
    (0 ≤ calculate_first_order_entropy ['A'] ∧ 0 ≤ calculate_second_order_entropy ['A']) :=
  ⟨by decide, entropies_nonneg ['A'] (by decide)⟩

/-! ### C5: padding happens only in the joint coding functions -/

theorem count_inst_eq {α : Type} [DecidableEq α] {inst : BEq α} [linst : @LawfulBEq α inst]
    (a : α) (l : List α) :
    @List.count α inst a l = @List.count α instBEqOfDecidableEq a l := by
  induction l with
  | nil => rfl
  | cons b bs ih =>
    by_cases hba : b = a
    · subst hba
      rw [@List.count_cons_self α inst, @List.count_cons_self α instBEqOfDecidableEq, ih]
    · rw [@List.count_cons_of_ne α inst _ _ _ (Ne.symm hba),
        @List.count_cons_of_ne α instBEqOfDecidableEq _ _ _ (Ne.symm hba), ih]

theorem keys_sum_count_inst {α : Type} [DecidableEq α] {inst : BEq α} [@LawfulBEq α inst]
    (l : List α) :
    ((keys l).map (fun s => @List.count α inst s l)).sum = l.length := by
  rw [List.map_congr_left (fun s _ => @count_inst_eq α _ inst inferInstance s l)]
  exact keys_sum_count l

theorem chunks_length : ∀ (t : List Char), (chunks t).length = (t.length + 1) / 2
  | [] => rfl
  | [_] => by simp [chunks]
  | a :: b :: rest => by
    simp only [chunks, List.length_cons]
    rw [chunks_length rest]
    omega

theorem padLast_length : ∀ (l : List (List Char)), (padLast l).length = l.length
  | [] => rfl
  | [_] => rfl
  | p :: q :: rest => by
    show (p :: padLast (q :: rest)).length = _
    simp only [List.length_cons]
    rw [padLast_length (q :: rest)]
    simp

theorem jointPairs_length (t : List Char) :
    (jointPairs t).length = (t.length + 1) / 2 := by
  unfold jointPairs
  split_ifs <;> simp [padLast_length, chunks_length]

theorem jointPairs_ne_nil {t : List Char} (hne : t ≠ []) : jointPairs t ≠ [] := by
  have hl : 0 < t.length := List.length_pos.mpr hne
  have := jointPairs_length t
  intro hcon
  rw [hcon] at this
  simp at this
  omega

theorem logb_two_half : Real.logb 2 ((1 : ℝ) / 2) = -1 := by
  rw [one_div, Real.logb_inv, Real.logb_self_eq_one (by norm_num)]

theorem second_order_entropy_ABC :
    calculate_second_order_entropy ['A', 'B', 'C'] = 1 / 2 := by
  unfold calculate_second_order_entropy
  have hc1 : List.count ['A', 'B'] (chunks ['A', 'B', 'C']) = 1 := by decide
  have hc2 : List.count ['C'] (chunks ['A', 'B', 'C']) = 1 := by decide
  have hlen : (chunks ['A', 'B', 'C']).length = 2 := rfl
  have hk : keys (chunks ['A', 'B', 'C']) = [['A', 'B'], ['C']] := rfl
  rw [hk]
  simp only [List.map_cons, List.map_nil, List.sum_cons, List.sum_nil]
  rw [hc1, hc2, hlen]
  norm_num [logb_two_half]

/-- Counterexample for C5: in calculate_second_order_entropy the chunk
list for the odd-length text ABC is [AB, C] with the final one-character
chunk left unpadded; it is not the padded [AB, C_] the claim asserts. -/
theorem second_order_chunks_unpadded :
    chunks ['A', 'B', 'C'] = [['A', 'B'], ['C']] ∧
    chunks ['A', 'B', 'C'] ≠ [['A', 'B'], ['C', '_']] := by decide

/-- Amended C5: only the joint Huffman coding functions
(generate_joint_huffman_codes and calculate_joint_average_codeword_length)
pad the final chunk of an odd-length text with the sentinel;
calculate_second_order_entropy partitions into non-overlapping chunks of
2 in original order but leaves the final single-character chunk
unpadded.  For ABC the entropy computation uses pairs [AB, C], each with
count 1 and probability 0.5, and still returns 0.5, while the joint
coding functions use [AB, C_]. -/
theorem second_order_unpadded_joint_padded :
    chunks ['A', 'B', 'C'] = [['A', 'B'], ['C']] ∧
    jointPairs ['A', 'B', 'C'] = [['A', 'B'], ['C', '_']] ∧
    List.count ['A', 'B'] (chunks ['A', 'B', 'C']) = 1 ∧
    List.count ['C'] (chunks ['A', 'B', 'C']) = 1 ∧
    calculate_second_order_entropy ['A', 'B', 'C'] = 1 / 2 :=
  ⟨by decide, by decide, by decide, by decide, second_order_entropy_ABC⟩

/-! ### C8: the joint average codeword length is per pair -/

theorem jointLeafHeap_perm (t : List Char) :
    (jointLeafHeap t).Perm ((keys (jointPairs t)).map
      (fun p => Node.leaf ((jointPairs t).count p) (JSym.str p) [])) := by
  have h := foldl_heappush_perm
    (fun p => Node.leaf ((jointPairs t).count p) (JSym.str p) ([] : List Char))
    (keys (jointPairs t)) []
  simpa [jointLeafHeap] using h

theorem jointLeafHeap_length (t : List Char) :
    (jointLeafHeap t).length = (keys (jointPairs t)).length := by
  rw [(jointLeafHeap_perm t).length_eq]
  simp

theorem jointMergeLoop_root_exists (t : List Char) (hne : t ≠ []) :
    ∃ root, mergeLoopF JSym.pair (jointLeafHeap t).length (jointLeafHeap t) = [root] := by
  have hk : keys (jointPairs t) ≠ [] := fun h => (jointPairs_ne_nil hne) ((keys_nil_iff _).mp h)
  have hlen : 0 < (jointLeafHeap t).length := by
    rw [jointLeafHeap_length]
    exact List.length_pos.mpr hk
  have h1 := mergeLoopF_length_one JSym.pair (jointLeafHeap t).length (jointLeafHeap t)
    (List.length_pos.mp hlen) (by omega)
  cases hr : mergeLoopF JSym.pair (jointLeafHeap t).length (jointLeafHeap t) with
  | nil => rw [hr] at h1; simp at h1
  | cons root rest =>
    rw [hr] at h1
    simp only [List.length_cons, Nat.add_left_eq_self, List.length_eq_zero] at h1
    exact ⟨root, by rw [h1]⟩

theorem jointMergeLoop_root_leafSyms {t : List Char} {root : Node JSym}
    (hr : mergeLoopF JSym.pair (jointLeafHeap t).length (jointLeafHeap t) = [root]) :
    (leafSyms root).Perm ((keys (jointPairs t)).map JSym.str) := by
  have h := mergeLoopF_flatten_perm JSym.pair leafSyms setHuff_leafSyms
    (fun f s l r h => rfl) (jointLeafHeap t).length (jointLeafHeap t)
  rw [hr] at h
  simp only [List.map_cons, List.map_nil, List.flatten_cons, List.flatten_nil,
    List.append_nil] at h
  refine h.trans ?_
  refine (perm_flatten ((jointLeafHeap_perm t).map leafSyms)).trans ?_
  rw [List.map_map]
  have heq : (leafSyms ∘ fun p =>
      Node.leaf ((jointPairs t).count p) (JSym.str p) ([] : List Char)) =
      fun p => [JSym.str p] := by
    funext p; rfl
  rw [heq, flatten_singleton_map]

theorem generate_joint_eq_codesOf {t : List Char} {root : Node JSym}
    (hr : mergeLoopF JSym.pair (jointLeafHeap t).length (jointLeafHeap t) = [root]) :
    generate_joint_huffman_codes t = codesOf root [] := by
  unfold generate_joint_huffman_codes generate_joint_huffman_codes_g
  simp only [hr]
  rw [extract_eq_codesOf]
  simp

theorem joint_avg_ABC : calculate_joint_average_codeword_length ['A', 'B', 'C'] = 1 := by
  have hcodes : generate_joint_huffman_codes ['A', 'B', 'C'] =
      [(JSym.str ['A', 'B'], ['0']), (JSym.str ['C', '_'], ['1'])] := by decide
  have hjp : jointPairs ['A', 'B', 'C'] = [['A', 'B'], ['C', '_']] := by decide
  have h1 : List.count ['A', 'B'] ([['A', 'B'], ['C', '_']] : List (List Char)) = 1 := by decide
  have h2 : List.count ['C', '_'] ([['A', 'B'], ['C', '_']] : List (List Char)) = 1 := by decide
  unfold calculate_joint_average_codeword_length
  rw [hcodes, hjp]
  simp only [List.map_cons, List.map_nil, List.sum_cons, List.sum_nil, jointCounterLookup,
    List.length_cons, List.length_nil]
  rw [h1, h2]
  norm_num

theorem joint_prob_sum_one (t : List Char) (hne : t ≠ []) :
    ((generate_joint_huffman_codes t).map (fun sc =>
      (jointCounterLookup (jointPairs t) sc.1 : ℝ) / ((jointPairs t).length : ℝ))).sum = 1 := by
  obtain ⟨root, hr⟩ := jointMergeLoop_root_exists t hne
  rw [generate_joint_eq_codesOf hr]
  have hmm : (codesOf root []).map (fun sc =>
      (jointCounterLookup (jointPairs t) sc.1 : ℝ) / ((jointPairs t).length : ℝ)) =
      ((codesOf root []).map Prod.fst).map (fun s =>
      (jointCounterLookup (jointPairs t) s : ℝ) / ((jointPairs t).length : ℝ)) := by
    rw [List.map_map]
    rfl
  rw [hmm, codesOf_map_fst root []]
  rw [((jointMergeLoop_root_leafSyms hr).map (fun s =>
    (jointCounterLookup (jointPairs t) s : ℝ) / ((jointPairs t).length : ℝ))).sum_eq]
  rw [List.map_map]
  have hcomp : ((fun s => (jointCounterLookup (jointPairs t) s : ℝ) /
      ((jointPairs t).length : ℝ)) ∘ JSym.str) =
      fun p => ((jointPairs t).count p : ℝ) / ((jointPairs t).length : ℝ) := by
    funext p; rfl
  rw [hcomp]
  have hN : ((jointPairs t).length : ℝ) ≠ 0 :=
    Nat.cast_ne_zero.mpr (fun h => (jointPairs_ne_nil hne) (List.length_eq_zero.mp h))
  have hdiv : ((keys (jointPairs t)).map (fun p =>
      ((jointPairs t).count p : ℝ) / ((jointPairs t).length : ℝ))) =
      ((keys (jointPairs t)).map (fun p =>
      ((jointPairs t).count p : ℝ) * (((jointPairs t).length : ℝ))⁻¹)) := by
    simp [div_eq_mul_inv]
  rw [hdiv, List.sum_map_mul_right]
  have hsum : ((keys (jointPairs t)).map (fun p => (((jointPairs t).count p : ℕ) : ℝ))).sum =
      (((jointPairs t).length : ℕ) : ℝ) := by
    rw [show ((keys (jointPairs t)).map (fun p => (((jointPairs t).count p : ℕ) : ℝ))) =
        (((keys (jointPairs t)).map (fun p => (jointPairs t).count p)).map
          (fun n => ((n : ℕ) : ℝ))) from by rw [List.map_map]; rfl]
    rw [show (((keys (jointPairs t)).map (fun p => (jointPairs t).count p)).map
        (fun n => ((n : ℕ) : ℝ))) =
        (((keys (jointPairs t)).map (fun p => (jointPairs t).count p)).map Nat.cast) from rfl]
    rw [← Nat.cast_list_sum]
    rw [keys_sum_count_inst]
  rw [hsum, mul_inv_cancel₀ hN]

/-- C8: the joint average codeword length is the pair-probability-weighted
sum of pair code lengths, expressed in bits per pair.  The codes list
carries exactly one entry per distinct padded pair; the weights used by
calculate_joint_average_codeword_length are the pair probabilities
count(pair)/len(pairs), which sum to 1 over the codes list, so the result
is a weighted average of pair code lengths with no division by 2.  In
contrast calculate_second_order_entropy divides by 2: concretely, for ABC
the joint average is 1 (bit per pair) while twice the second-order
entropy is 1 (so the entropy itself is 0.5, per original symbol). -/
theorem joint_average_is_per_pair (t : List Char) (hne : t ≠ []) :
    ((generate_joint_huffman_codes t).map Prod.fst).Perm
      ((keys (jointPairs t)).map JSym.str) ∧
    ((generate_joint_huffman_codes t).map (fun sc =>
      (jointCounterLookup (jointPairs t) sc.1 : ℝ) / ((jointPairs t).length : ℝ))).sum = 1 ∧
    calculate_joint_average_codeword_length ['A', 'B', 'C'] = 1 ∧
    2 * calculate_second_order_entropy ['A', 'B', 'C'] = 1 := by
  obtain ⟨root, hr⟩ := jointMergeLoop_root_exists t hne
  refine ⟨?_, joint_prob_sum_one t hne, joint_avg_ABC, ?_⟩
  · rw [generate_joint_eq_codesOf hr, codesOf_map_fst]
    exact jointMergeLoop_root_leafSyms hr
  · rw [second_order_entropy_ABC]
    norm_num

/-- Witness for C8 at the concrete text ABC. -/
theorem joint_average_is_per_pair_witness :
    (['A', 'B', 'C'] : List Char) ≠ [] ∧
    (((generate_joint_huffman_codes ['A', 'B', 'C']).map Prod.fst).Perm
      ((keys (jointPairs ['A', 'B', 'C'])).map JSym.str) ∧
    ((generate_joint_huffman_codes ['A', 'B', 'C']).map (fun sc =>
      (jointCounterLookup (jointPairs ['A', 'B', 'C']) sc.1 : ℝ) /
        ((jointPairs ['A', 'B', 'C']).length : ℝ))).sum = 1 ∧
    calculate_joint_average_codeword_length ['A', 'B', 'C'] = 1 ∧
    2 * calculate_second_order_entropy ['A', 'B', 'C'] = 1) :=
  ⟨by decide, joint_average_is_per_pair ['A', 'B', 'C'] (by decide)⟩

/-! ### C1, lower bound: Kraft equality and the Gibbs inequality -/

theorem list_sum_map_add {γ : Type} (l : List γ) (f g : γ → ℝ) :
    (l.map (fun x => f x + g x)).sum = (l.map f).sum + (l.map g).sum := by
  induction l with
  | nil => simp
  | cons a as ih => simp [ih]; ring

theorem list_sum_map_neg {γ : Type} (l : List γ) (f : γ → ℝ) :
    (l.map (fun x => -f x)).sum = -((l.map f).sum) := by
  induction l with
  | nil => simp
  | cons a as ih => simp [ih]; ring

theorem codesOf_kraft {α : Type} :
    ∀ (n : Node α), goodHuff n = true → ∀ code,
      ((codesOf n code).map (fun sc => ((1 : ℝ) / 2) ^ sc.2.length)).sum =
        ((1 : ℝ) / 2) ^ (code ++ huffOf n).length := by
  intro n
  induction n with
  | leaf f s h => intro _ code; simp [codesOf, huffOf]
  | internal f s l r h ihl ihr =>
    intro hg code
    simp only [goodHuff, Bool.and_eq_true, beq_iff_eq] at hg
    obtain ⟨⟨⟨hl0, hr1⟩, gl⟩, gr⟩ := hg
    rw [codesOf, List.map_append, List.sum_append, ihl gl, ihr gr, hl0, hr1]
    show ((1 : ℝ) / 2) ^ ((code ++ h) ++ ['0']).length +
        ((1 : ℝ) / 2) ^ ((code ++ h) ++ ['1']).length = _
    have h0 : ((code ++ h) ++ ['0']).length = (code ++ h).length + 1 := by
      simp only [List.length_append, List.length_cons, List.length_nil]
    have h1 : ((code ++ h) ++ ['1']).length = (code ++ h).length + 1 := by
      simp only [List.length_append, List.length_cons, List.length_nil]
    rw [h0, h1]
    show _ = ((1 : ℝ) / 2) ^ (code ++ huffOf (Node.internal f s l r h)).length
    have h2 : (code ++ huffOf (Node.internal f s l r h)).length = (code ++ h).length := rfl
    rw [h2, pow_succ]
    ring

theorem gibbs_list (L : List (ℝ × Nat))
    (hpos : ∀ p ∈ L, 0 < p.1)
    (hsum : (L.map Prod.fst).sum = 1)
    (hkraft : (L.map (fun p => ((1 : ℝ) / 2) ^ p.2)).sum ≤ 1) :
    -((L.map (fun p => p.1 * Real.logb 2 p.1)).sum) ≤
      (L.map (fun p => p.1 * (p.2 : ℝ))).sum := by
  have hlog2 : (0 : ℝ) < Real.log 2 := Real.log_pos (by norm_num)
  have hterm : ∀ pl ∈ L, -(pl.1 * (pl.2 : ℝ)) + -(pl.1 * Real.logb 2 pl.1) ≤
      (((1 : ℝ) / 2) ^ pl.2 - pl.1) / Real.log 2 := by
    intro pl hpl
    have hp : 0 < pl.1 := hpos pl hpl
    have hq : (0 : ℝ) < ((1 : ℝ) / 2) ^ pl.2 := by positivity
    have h1 : Real.log ((((1 : ℝ) / 2) ^ pl.2) / pl.1) ≤ (((1 : ℝ) / 2) ^ pl.2) / pl.1 - 1 :=
      Real.log_le_sub_one_of_pos (by positivity)
    have h2 : pl.1 * Real.log ((((1 : ℝ) / 2) ^ pl.2) / pl.1) ≤
        ((1 : ℝ) / 2) ^ pl.2 - pl.1 := by
      have h2a := mul_le_mul_of_nonneg_left h1 (le_of_lt hp)
      calc pl.1 * Real.log ((((1 : ℝ) / 2) ^ pl.2) / pl.1)
          ≤ pl.1 * ((((1 : ℝ) / 2) ^ pl.2) / pl.1 - 1) := h2a
        _ = ((1 : ℝ) / 2) ^ pl.2 - pl.1 := by field_simp; ring
    have h3 : Real.log ((((1 : ℝ) / 2) ^ pl.2) / pl.1) =
        Real.log (((1 : ℝ) / 2) ^ pl.2) - Real.log pl.1 :=
      Real.log_div (ne_of_gt hq) (ne_of_gt hp)
    have h4 : Real.log (((1 : ℝ) / 2) ^ pl.2) = -((pl.2 : ℝ) * Real.log 2) := by
      rw [one_div, inv_pow, Real.log_inv, Real.log_pow]
    rw [h3, h4] at h2
    have h5 : (pl.1 * (-((pl.2 : ℝ) * Real.log 2) - Real.log pl.1)) / Real.log 2 ≤
        (((1 : ℝ) / 2) ^ pl.2 - pl.1) / Real.log 2 :=
      (div_le_div_iff_of_pos_right hlog2).mpr h2
    refine le_trans (le_of_eq ?_) h5
    unfold Real.logb
    field_simp
    ring
  have hs := List.sum_le_sum hterm
  rw [list_sum_map_add, list_sum_map_neg, list_sum_map_neg] at hs
  have hrhs : (L.map (fun pl => (((1 : ℝ) / 2) ^ pl.2 - pl.1) / Real.log 2)).sum =
      ((L.map (fun pl => ((1 : ℝ) / 2) ^ pl.2)).sum - (L.map Prod.fst).sum) / Real.log 2 := by
    rw [show (L.map (fun pl => (((1 : ℝ) / 2) ^ pl.2 - pl.1) / Real.log 2)) =
        (L.map (fun pl => (((1 : ℝ) / 2) ^ pl.2 + -pl.1) * (Real.log 2)⁻¹)) from
      List.map_congr_left (fun a _ => by rw [div_eq_mul_inv]; ring)]
    rw [List.sum_map_mul_right, list_sum_map_add, list_sum_map_neg]
    rw [div_eq_mul_inv]
    ring
  rw [hrhs, hsum] at hs
  have hk2 : ((L.map (fun pl => ((1 : ℝ) / 2) ^ pl.2)).sum - 1) / Real.log 2 ≤ 0 :=
    div_nonpos_of_nonpos_of_nonneg (by linarith) (le_of_lt hlog2)
  linarith

/-! ### C1, lower bound: transfer to the codes list and conclude -/

theorem codes_sum_transfer (t : List Char) {root : Node (List Char)}
    (hr : mergeLoopF combineStr (buildLeafHeap t).length (buildLeafHeap t) = [root])
    (f : List Char → ℝ) :
    ((codesOf root []).map (fun sc => f sc.1)).sum = ((keys t).map (fun c => f [c])).sum := by
  rw [show (codesOf root []).map (fun sc => f sc.1) =
      ((codesOf root []).map Prod.fst).map f from by rw [List.map_map]; rfl]
  rw [codesOf_map_fst]
  rw [((mergeLoop_root_leafSyms hr).map f).sum_eq]
  rw [List.map_map]
  rfl

theorem huffman_prob_sum_one (t : List Char) (hne : t ≠ []) {root : Node (List Char)}
    (hr : mergeLoopF combineStr (buildLeafHeap t).length (buildLeafHeap t) = [root]) :
    ((codesOf root []).map (fun sc =>
      (counterLookup t sc.1 : ℝ) / (t.length : ℝ))).sum = 1 := by
  rw [codes_sum_transfer t hr (fun s => (counterLookup t s : ℝ) / (t.length : ℝ))]
  have hn : ((t.length : ℕ) : ℝ) ≠ 0 :=
    Nat.cast_ne_zero.mpr (fun h => hne (List.length_eq_zero.mp h))
  rw [show ((keys t).map (fun c => (counterLookup t [c] : ℝ) / (t.length : ℝ))) =
      ((keys t).map (fun c => (t.count c : ℝ) * ((t.length : ℝ))⁻¹)) from
    List.map_congr_left (fun c _ => by rw [div_eq_mul_inv]; rfl)]
  rw [List.sum_map_mul_right]
  rw [show ((keys t).map (fun c => ((t.count c : ℕ) : ℝ))) =
      (((keys t).map (fun c => t.count c)).map Nat.cast) from by rw [List.map_map]; rfl]
  rw [← Nat.cast_list_sum, keys_sum_count_inst]
  exact mul_inv_cancel₀ hn

theorem codes_prob_pos (t : List Char) (hne : t ≠ []) {root : Node (List Char)}
    (hr : mergeLoopF combineStr (buildLeafHeap t).length (buildLeafHeap t) = [root]) :
    ∀ sc ∈ codesOf root [], 0 < (counterLookup t sc.1 : ℝ) / (t.length : ℝ) := by
  intro sc hsc
  have h1 : sc.1 ∈ (codesOf root []).map Prod.fst := List.mem_map_of_mem _ hsc
  rw [codesOf_map_fst] at h1
  have h2 := (mergeLoop_root_leafSyms hr).mem_iff.mp h1
  rcases List.mem_map.mp h2 with ⟨c, hc, heq⟩
  rw [← heq]
  have hcin : c ∈ t := (keys_mem c t).mp hc
  have hcount : 0 < t.count c := List.count_pos_iff.mpr hcin
  have hn : 0 < t.length := List.length_pos.mpr hne
  have hcl : (counterLookup t [c] : ℝ) = (t.count c : ℝ) := rfl
  rw [hcl]
  exact div_pos (by exact_mod_cast hcount) (by exact_mod_cast hn)

theorem codes_kraft_one (t : List Char) {root : Node (List Char)}
    (hr : mergeLoopF combineStr (buildLeafHeap t).length (buildLeafHeap t) = [root]) :
    ((codesOf root []).map (fun sc => ((1 : ℝ) / 2) ^ sc.2.length)).sum = 1 := by
  rw [codesOf_kraft root (mergeLoop_root_goodHuff hr) []]
  rw [List.nil_append, mergeLoop_root_huff_nil hr]
  simp

theorem entropy_codes_eq (t : List Char) {root : Node (List Char)}
    (hr : mergeLoopF combineStr (buildLeafHeap t).length (buildLeafHeap t) = [root]) :
    calculate_first_order_entropy t = -(((codesOf root []).map (fun sc =>
      ((counterLookup t sc.1 : ℝ) / (t.length : ℝ)) *
        Real.logb 2 ((counterLookup t sc.1 : ℝ) / (t.length : ℝ)))).sum) := by
  unfold calculate_first_order_entropy
  congr 1
  rw [codes_sum_transfer t hr (fun s => ((counterLookup t s : ℝ) / (t.length : ℝ)) *
    Real.logb 2 ((counterLookup t s : ℝ) / (t.length : ℝ)))]
  rfl

theorem avg_ge_entropy (t : List Char) (hne : t ≠ []) :
    calculate_first_order_entropy t ≤ calculate_average_codeword_length t := by
  obtain ⟨root, hr⟩ := mergeLoop_root_exists t hne
  set L := (codesOf root []).map (fun sc =>
    (((counterLookup t sc.1 : ℝ) / (t.length : ℝ)), sc.2.length)) with hLdef
  have hL1 : (L.map Prod.fst) = (codesOf root []).map (fun sc =>
      (counterLookup t sc.1 : ℝ) / (t.length : ℝ)) := by
    rw [hLdef, List.map_map]; rfl
  have hL2 : (L.map (fun p => ((1 : ℝ) / 2) ^ p.2)) = (codesOf root []).map (fun sc =>
      ((1 : ℝ) / 2) ^ sc.2.length) := by
    rw [hLdef, List.map_map]; rfl
  have hL3 : (L.map (fun p => p.1 * (p.2 : ℝ))) = (codesOf root []).map (fun sc =>
      ((counterLookup t sc.1 : ℝ) / (t.length : ℝ)) * (sc.2.length : ℝ)) := by
    rw [hLdef, List.map_map]; rfl
  have hL4 : (L.map (fun p => p.1 * Real.logb 2 p.1)) = (codesOf root []).map (fun sc =>
      ((counterLookup t sc.1 : ℝ) / (t.length : ℝ)) *
        Real.logb 2 ((counterLookup t sc.1 : ℝ) / (t.length : ℝ))) := by
    rw [hLdef, List.map_map]; rfl
  have hpos : ∀ p ∈ L, 0 < p.1 := by
    intro p hp
    rw [hLdef] at hp
    rcases List.mem_map.mp hp with ⟨sc, hsc, rfl⟩
    exact codes_prob_pos t hne hr sc hsc
  have hsum : (L.map Prod.fst).sum = 1 := by
    rw [hL1]; exact huffman_prob_sum_one t hne hr
  have hkraft : (L.map (fun p => ((1 : ℝ) / 2) ^ p.2)).sum ≤ 1 := by
    rw [hL2, codes_kraft_one t hr]
  have hg := gibbs_list L hpos hsum hkraft
  rw [hL3, hL4] at hg
  rw [entropy_codes_eq t hr]
  unfold calculate_average_codeword_length
  rw [generate_eq_codesOf hr]
  exact hg

/-! ### C1, upper bound, step 1: the heap really is a min-heap -/

theorem isHeap_root_min {α : Type} {h : List (Node α)} (hh : IsHeap h) {r : Node α}
    (hr : h[0]? = some r) : ∀ (j : Nat) (x : Node α), h[j]? = some x → freqOf r ≤ freqOf x := by
  intro j
  induction j using Nat.strong_induction_on with
  | _ j ih =>
    intro x hx
    rcases Nat.eq_zero_or_pos j with rfl | hj
    · rw [hr] at hx
      injection hx with hxx
      rw [hxx]
    · have hpar : (j - 1) / 2 < j := by omega
      have hlt : j < h.length := by
        by_contra hc
        have hnone : h[j]? = none := List.getElem?_eq_none (le_of_not_lt hc)
        rw [hnone] at hx
        exact absurd hx (by simp)
      have hparlt : (j - 1) / 2 < h.length := lt_trans hpar hlt
      obtain ⟨y, hy⟩ : ∃ y, h[(j - 1) / 2]? = some y :=
        ⟨_, List.getElem?_eq_getElem hparlt⟩
      exact le_trans (ih _ hpar y hy) (hh j hj x y hx hy)

theorem getElem?_set_lt {α : Type} (l : List α) (i : Nat) (a : α) (h : i < l.length) :
    (l.set i a)[i]? = some a := by
  rw [List.getElem?_set_self']
  simp [List.getElem?_eq_getElem h]

theorem siftdown_correct {α : Type} :
    ∀ (fuel : Nat) (heap : List (Node α)) (pos : Nat) (item : Node α),
      pos ≤ fuel → pos < heap.length →
      IsHeapExceptAt (heap.set pos item) pos →
      (∀ c x pv, 0 < pos → (c = 2 * pos + 1 ∨ c = 2 * pos + 2) → heap[c]? = some x →
        heap[(pos - 1) / 2]? = some pv → freqOf pv ≤ freqOf x) →
      IsHeap (siftdownFuel fuel heap 0 pos item) := by
  intro fuel
  induction fuel with
  | zero =>
    intro heap pos item hfuel hpos h1 _
    have hp0 : pos = 0 := Nat.le_zero.mp hfuel
    subst hp0
    show IsHeap (heap.set 0 item)
    intro i hi x y hx hy
    exact h1 i x y hi (by omega) hx hy
  | succ fuel ih =>
    intro heap pos item hfuel hpos h1 h2
    have hVIpos : (heap.set pos item)[pos]? = some item := getElem?_set_lt _ _ _ hpos
    have hVIother : ∀ idx, idx ≠ pos → (heap.set pos item)[idx]? = heap[idx]? :=
      fun idx hidx => List.getElem?_set_ne (fun hc => hidx hc.symm)
    have h1heap : ∀ i x y, 0 < i → i ≠ pos → (i - 1) / 2 ≠ pos → heap[i]? = some x →
        heap[(i - 1) / 2]? = some y → freqOf y ≤ freqOf x := by
      intro i x y hi hip hpp hx hy
      exact h1 i x y hi hip (by rw [hVIother i hip]; exact hx)
        (by rw [hVIother _ hpp]; exact hy)
    have h1child : ∀ i x, 0 < i → (i - 1) / 2 = pos → i ≠ pos → heap[i]? = some x →
        freqOf item ≤ freqOf x := by
      intro i x hi hpp hip hx
      have := h1 i x item hi hip (by rw [hVIother i hip]; exact hx)
        (by rw [hpp]; exact hVIpos)
      exact this
    show IsHeap (siftdownFuel (fuel + 1) heap 0 pos item)
    simp only [siftdownFuel]
    by_cases hp0 : 0 < pos
    · rw [if_pos hp0]
      have hparlt : (pos - 1) / 2 < heap.length := by
        have : (pos - 1) / 2 ≤ pos - 1 := Nat.div_le_self _ _
        omega
      have hgetD : heap.getD ((pos - 1) / 2) item = heap[(pos - 1) / 2] :=
        List.getD_eq_getElem heap item hparlt
      set parent := heap.getD ((pos - 1) / 2) item with hparentdef
      have hparent : heap[(pos - 1) / 2]? = some parent := by
        rw [List.getElem?_eq_getElem hparlt]
        exact congrArg some hgetD.symm
      by_cases hcmp : freqOf item < freqOf parent
      · rw [if_pos hcmp]
        set p1 := (pos - 1) / 2 with hp1def
        have hp1pos : p1 < pos := by omega
        have hVp1 : ((heap.set pos parent).set p1 item)[p1]? = some item :=
          getElem?_set_lt _ _ _ (by simpa using hparlt)
        have hVpos : ((heap.set pos parent).set p1 item)[pos]? = some parent := by
          rw [List.getElem?_set_ne (by omega : p1 ≠ pos)]
          exact getElem?_set_lt _ _ _ hpos
        have hVother : ∀ idx, idx ≠ pos → idx ≠ p1 →
            ((heap.set pos parent).set p1 item)[idx]? = heap[idx]? := by
          intro idx hi1 hi2
          rw [List.getElem?_set_ne (fun hc => hi2 hc.symm),
            List.getElem?_set_ne (fun hc => hi1 hc.symm)]
        apply ih (heap.set pos parent) p1 item (by omega) (by simpa using hparlt)
        · intro i x y hi hne hx hy
          by_cases hipos : i = pos
          · subst hipos
            rw [hVpos] at hx
            injection hx with hx
            have hyp : (i - 1) / 2 = p1 := rfl
            rw [hyp, hVp1] at hy
            injection hy with hy
            rw [← hx, ← hy]
            exact le_of_lt hcmp
          · by_cases hipar : (i - 1) / 2 = pos
            · have hij : i = 2 * pos + 1 ∨ i = 2 * pos + 2 := by omega
              have hinep1 : i ≠ p1 := by omega
              rw [hVother i hipos hinep1] at hx
              rw [hipar, hVpos] at hy
              injection hy with hy
              rw [← hy]
              exact h2 i x parent hp0 hij hx hparent
            · by_cases hipar2 : (i - 1) / 2 = p1
              · have hinep1 : i ≠ p1 := hne
                rw [hVother i hipos hinep1] at hx
                rw [hipar2, hVp1] at hy
                injection hy with hy
                rw [← hy]
                refine le_trans (le_of_lt hcmp) ?_
                have := h1heap i x parent hi hipos (by omega) hx (by rw [hipar2]; exact hparent)
                exact this
              · rw [hVother i hipos hne] at hx
                rw [hVother _ (by omega) hipar2] at hy
                exact h1heap i x y hi hipos hipar hx hy
        · intro c x pv hp1gt hc hx hpv
          have hp2ne : (p1 - 1) / 2 ≠ pos := by omega
          have hpv2 : heap[(p1 - 1) / 2]? = some pv := by
            rw [List.getElem?_set_ne (by omega : pos ≠ (p1 - 1) / 2)] at hpv
            exact hpv
          have hpair : freqOf pv ≤ freqOf parent :=
            h1heap p1 parent pv hp1gt (by omega) (by omega) hparent hpv2
          by_cases hcpos : c = pos
          · subst hcpos
            rw [getElem?_set_lt _ _ _ hpos] at hx
            injection hx with hx
            rw [← hx]
            exact hpair
          · rw [List.getElem?_set_ne (fun hcc => hcpos hcc.symm)] at hx
            have hcp1 : (c - 1) / 2 = p1 := by omega
            refine le_trans hpair ?_
            exact h1heap c x parent (by omega) hcpos (by omega) hx
              (by rw [hcp1]; exact hparent)
      · rw [if_neg hcmp]
        intro i hi x y hx hy
        by_cases hipos : i = pos
        · subst hipos
          rw [hVIpos] at hx
          injection hx with hx
          rw [hVIother _ (by omega : (i - 1) / 2 ≠ i)] at hy
          rw [hparent] at hy
          injection hy with hy
          rw [← hx, ← hy]
          exact le_of_not_lt hcmp
        · exact h1 i x y hi hipos hx hy
    · rw [if_neg hp0]
      intro i hi x y hx hy
      exact h1 i x y hi (by omega) hx hy

theorem heappush_isHeap {α : Type} {heap : List (Node α)} (hh : IsHeap heap) (item : Node α) :
    IsHeap (heappush heap item) := by
  unfold heappush
  apply siftdown_correct heap.length (heap ++ [item]) heap.length item (le_refl _) (by simp)
  · rw [set_append_length]
    intro i x y hi hne hx hy
    have hilen : i < heap.length + 1 := by
      by_contra hc
      have hnone : (heap ++ [item])[i]? = none := List.getElem?_eq_none (by simp; omega)
      rw [hnone] at hx
      exact absurd hx (by simp)
    have hilt : i < heap.length := by omega
    rw [List.getElem?_append, if_pos hilt] at hx
    rw [List.getElem?_append, if_pos (by omega : (i - 1) / 2 < heap.length)] at hy
    exact hh i hi x y hx hy
  · intro c x pv hpos hc hx hpv
    exfalso
    have hnone : (heap ++ [item])[c]? = none := List.getElem?_eq_none (by simp; omega)
    rw [hnone] at hx
    exact absurd hx (by simp)

theorem siftup_correct {α : Type} :
    ∀ (fuel : Nat) (heap : List (Node α)) (pos : Nat) (item : Node α),
      pos < heap.length → heap.length ≤ fuel + pos →
      DownInv heap pos →
      IsHeap (siftupFuel fuel heap pos item 0) := by
  intro fuel
  induction fuel with
  | zero =>
    intro heap pos item hpos hlen _
    exact absurd hpos (by omega)
  | succ fuel ih =>
    intro heap pos item hpos hlen hinv
    obtain ⟨hD1, hD2⟩ := hinv
    show IsHeap (siftupFuel (fuel + 1) heap pos item 0)
    simp only [siftupFuel]
    have hkey : ∀ cstar : Nat, (cstar = 2 * pos + 1 ∨ cstar = 2 * pos + 2) →
        cstar < heap.length →
        (∀ s xs, (s = 2 * pos + 1 ∨ s = 2 * pos + 2) → s ≠ cstar → heap[s]? = some xs →
          freqOf (heap.getD cstar item) ≤ freqOf xs) →
        DownInv (heap.set pos (heap.getD cstar item)) cstar := by
      intro cstar hcs hcslt hsmall
      have hcv : heap[cstar]? = some (heap.getD cstar item) := by
        rw [List.getElem?_eq_getElem hcslt]
        exact congrArg some (List.getD_eq_getElem heap item hcslt).symm
      have hread_pos : (heap.set pos (heap.getD cstar item))[pos]? =
          some (heap.getD cstar item) := getElem?_set_lt _ _ _ hpos
      have hread_other : ∀ idx, pos ≠ idx →
          (heap.set pos (heap.getD cstar item))[idx]? = heap[idx]? :=
        fun idx hidx => List.getElem?_set_ne hidx
      have hcspos : pos < cstar := by omega
      constructor
      · intro i x y hi hic hipc hx hy
        by_cases hipos : i = pos
        · rw [hipos, hread_pos] at hx
          injection hx with hx
          have hppne : pos ≠ (i - 1) / 2 := by omega
          rw [hread_other _ hppne] at hy
          rw [← hx]
          have hpos0 : 0 < pos := by omega
          have hy2 : heap[(pos - 1) / 2]? = some y := by
            rw [show (pos - 1) / 2 = (i - 1) / 2 from by rw [hipos]]
            exact hy
          exact hD2 cstar (heap.getD cstar item) y hpos0 hcs hcv hy2
        · by_cases hipar : (i - 1) / 2 = pos
          · have hii : i = 2 * pos + 1 ∨ i = 2 * pos + 2 := by omega
            rw [hread_other i (by omega)] at hx
            rw [hipar, hread_pos] at hy
            injection hy with hy
            rw [← hy]
            exact hsmall i x hii hic hx
          · rw [hread_other i (by omega)] at hx
            rw [hread_other _ (by omega)] at hy
            exact hD1 i x y hi hipos hipar hx hy
      · intro d xd pvd hcsgt hd hxd hpvd
        rw [hread_other d (by omega)] at hxd
        rw [show (cstar - 1) / 2 = pos from by omega, hread_pos] at hpvd
        injection hpvd with hpvd
        rw [← hpvd]
        have hdc : (d - 1) / 2 = cstar := by omega
        exact hD1 d xd (heap.getD cstar item) (by omega) (by omega) (by omega) hxd
          (by rw [hdc]; exact hcv)
    by_cases hchild : 2 * pos + 1 < heap.length
    · rw [if_pos hchild]
      by_cases hsel : 2 * pos + 1 + 1 < heap.length ∧
          ¬ (freqOf (heap.getD (2 * pos + 1) item) <
            freqOf (heap.getD (2 * pos + 1 + 1) item))
      · rw [if_pos hsel]
        apply ih _ _ item (by simpa using (show 2 * pos + 2 < heap.length by omega))
          (by simp; omega)
        have harg : ∀ s xs, (s = 2 * pos + 1 ∨ s = 2 * pos + 2) → s ≠ 2 * pos + 2 →
            heap[s]? = some xs →
            freqOf (heap.getD (2 * pos + 2) item) ≤ freqOf xs := by
          intro s xs hs hsne hxs
          have hseq : s = 2 * pos + 1 := by omega
          have hxv : xs = heap.getD (2 * pos + 1) item := by
            rw [List.getD_eq_getElem heap item hchild]
            rw [hseq, List.getElem?_eq_getElem hchild] at hxs
            injection hxs with hxs
            exact hxs.symm
          rw [hxv]
          have := le_of_not_lt hsel.2
          simpa [show 2 * pos + 1 + 1 = 2 * pos + 2 from rfl] using this
        have hkk := hkey (2 * pos + 2) (Or.inr rfl) (by omega) harg
        simpa [show 2 * pos + 1 + 1 = 2 * pos + 2 from rfl] using hkk
      · rw [if_neg hsel]
        apply ih _ _ item (by simpa using hchild) (by simp; omega)
        apply hkey (2 * pos + 1) (Or.inl rfl) hchild
        intro s xs hs hsne hxs
        have hseq : s = 2 * pos + 2 := by omega
        have hslt : s < heap.length := by
          by_contra hc
          have hnone : heap[s]? = none := List.getElem?_eq_none (le_of_not_lt hc)
          rw [hnone] at hxs
          exact absurd hxs (by simp)
        have hor : freqOf (heap.getD (2 * pos + 1) item) <
            freqOf (heap.getD (2 * pos + 1 + 1) item) := by
          by_contra hcon
          exact hsel ⟨by omega, hcon⟩
        have hxv : xs = heap.getD s item := by
          rw [List.getD_eq_getElem heap item hslt]
          rw [List.getElem?_eq_getElem hslt] at hxs
          injection hxs with hxs
          exact hxs.symm
        rw [hxv, hseq]
        have : heap.getD (2 * pos + 1 + 1) item = heap.getD (2 * pos + 2) item := by
          rw [show 2 * pos + 1 + 1 = 2 * pos + 2 from rfl]
        rw [← this]
        exact le_of_lt hor
    · rw [if_neg hchild]
      apply siftdown_correct pos (heap.set pos item) pos item (le_refl _) (by simpa using hpos)
      · rw [List.set_set]
        intro i x y hi hne hx hy
        by_cases hipar : (i - 1) / 2 = pos
        · exfalso
          have hige : heap.length ≤ i := by omega
          have hnone : (heap.set pos item)[i]? = none :=
            List.getElem?_eq_none (by simpa using hige)
          rw [hnone] at hx
          exact absurd hx (by simp)
        · have hx2 : heap[i]? = some x := by
            rw [List.getElem?_set_ne (by omega : pos ≠ i)] at hx
            exact hx
          have hy2 : heap[(i - 1) / 2]? = some y := by
            rw [List.getElem?_set_ne (by omega : pos ≠ (i - 1) / 2)] at hy
            exact hy
          exact hD1 i x y hi hne hipar hx2 hy2
      · intro c x pv hposgt hc hx hpv
        exfalso
        have hige : heap.length ≤ c := by omega
        have hnone : (heap.set pos item)[c]? = none :=
          List.getElem?_eq_none (by simpa using hige)
        rw [hnone] at hx
        exact absurd hx (by simp)

theorem heappop_min_isHeap {α : Type} {heap h' : List (Node α)} {x : Node α}
    (hh : IsHeap heap) (hpop : heappop heap = some (x, h')) :
    (∀ z ∈ heap, freqOf x ≤ freqOf z) ∧ IsHeap h' := by
  rcases List.eq_nil_or_concat heap with rfl | ⟨ys, gl, rfl⟩
  · simp [heappop] at hpop
  · rw [List.concat_eq_append] at hpop hh ⊢
    unfold heappop at hpop
    rw [List.getLast?_concat, List.dropLast_concat] at hpop
    cases hys : ys with
    | nil =>
      subst hys
      simp only [Option.some.injEq, Prod.mk.injEq] at hpop
      obtain ⟨rfl, rfl⟩ := hpop
      refine ⟨?_, ?_⟩
      · intro z hz
        simp at hz
        rw [hz]
      · intro i hi a b ha _
        simp at ha
    | cons z zs =>
      subst hys
      simp only [Option.some.injEq, Prod.mk.injEq] at hpop
      obtain ⟨rfl, rfl⟩ := hpop
      have hroot : ((z :: zs) ++ [gl])[0]? = some z := by simp
      refine ⟨?_, ?_⟩
      · intro w hw
        obtain ⟨j, hj⟩ := List.mem_iff_getElem?.mp hw
        exact isHeap_root_min hh hroot j w hj
      · apply siftup_correct (gl :: zs).length (gl :: zs) 0 gl (by simp) (by simp)
        constructor
        · intro i a b hi _ hipar ha hb
          have hib : i < zs.length + 1 := by
            by_contra hc
            have hnone : (gl :: zs)[i]? = none := List.getElem?_eq_none (by simp; omega)
            rw [hnone] at ha
            exact absurd ha (by simp)
          have htrans : ∀ k c, 0 < k → k < zs.length + 1 → (gl :: zs)[k]? = some c →
              ((z :: zs) ++ [gl])[k]? = some c := by
            intro k c hk hkb hc
            rw [List.getElem?_append, if_pos (by simp; omega)]
            cases k with
            | zero => omega
            | succ m =>
              rw [List.getElem?_cons_succ] at hc ⊢
              exact hc
          have hparb : (i - 1) / 2 < zs.length + 1 := by omega
          have hparpos : 0 < (i - 1) / 2 := Nat.pos_of_ne_zero hipar
          exact hh i hi a b (htrans i a hi hib ha) (htrans _ b hparpos hparb hb)
        · intro c a pv h0 _ _ _
          exact absurd h0 (by omega)

theorem foldl_heappush_isHeap {α γ : Type} (mk : γ → Node α) :
    ∀ (ks : List γ) (init : List (Node α)), IsHeap init →
      IsHeap (ks.foldl (fun ns k => heappush ns (mk k)) init) := by
  intro ks
  induction ks with
  | nil => intro init h; exact h
  | cons a as ih =>
    intro init h
    exact ih _ (heappush_isHeap h (mk a))

theorem buildLeafHeap_isHeap (t : List Char) : IsHeap (buildLeafHeap t) := by
  unfold buildLeafHeap
  apply foldl_heappush_isHeap
  intro i hi a b ha _
  simp at ha

/-! ### C1, upper bound, step 2: the loop realizes the two-minima merge process -/

theorem mergeLoop_minMergeCost {α : Type} (combine : α → α → α) :
    ∀ (fuel : Nat) (nodes : List (Node α)), nodes ≠ [] → nodes.length ≤ fuel + 1 →
      IsHeap nodes →
      ∃ root c, mergeLoopF combine fuel nodes = [root] ∧
        MinMergeCost (↑(nodes.map freqOf)) c ∧
        depthCost root = (nodes.map depthCost).sum + c := by
  intro fuel
  induction fuel with
  | zero =>
    intro nodes hne hlen hh
    cases nodes with
    | nil => exact absurd rfl hne
    | cons n rest =>
      have hr : rest = [] := by
        cases rest with
        | nil => rfl
        | cons m ms => simp at hlen
      subst hr
      refine ⟨n, 0, rfl, ?_, by simp⟩
      have : ((([n].map freqOf) : List Nat) : Multiset Nat) = {freqOf n} := by simp
      rw [this]
      exact MinMergeCost.single (freqOf n)
  | succ k ih =>
    intro nodes hne hlen hh
    by_cases h1 : 1 < nodes.length
    · obtain ⟨⟨left, rest⟩, hpop⟩ := heappop_of_ne_nil nodes hne
      have hrl : rest.length + 1 = nodes.length := heappop_length hpop
      have hrest_ne : rest ≠ [] := by
        intro hcon; rw [hcon] at hrl; simp at hrl; omega
      obtain ⟨hmin1, hheap1⟩ := heappop_min_isHeap hh hpop
      obtain ⟨⟨right, rest2⟩, hpop2⟩ := heappop_of_ne_nil rest hrest_ne
      have hr2 : rest2.length + 1 = rest.length := heappop_length hpop2
      obtain ⟨hmin2, hheap2⟩ := heappop_min_isHeap hheap1 hpop2
      set nn := Node.internal (freqOf left + freqOf right)
        (combine (symbolOf left) (symbolOf right))
        (setHuff left ['0']) (setHuff right ['1']) ([] : List Char) with hnndef
      have hpushheap : IsHeap (heappush rest2 nn) := heappush_isHeap hheap2 nn
      have hpushne : heappush rest2 nn ≠ [] :=
        List.length_pos.mp (by rw [heappush_length]; omega)
      have hpushlen : (heappush rest2 nn).length ≤ k + 1 := by
        rw [heappush_length]; omega
      obtain ⟨root, c, hroot, hcost, hdc⟩ := ih (heappush rest2 nn) hpushne hpushlen hpushheap
      rw [mergeLoopF_succ_step combine k h1 hpop hpop2]
      refine ⟨root, c + (freqOf left + freqOf right), hroot, ?_, ?_⟩
      · have hperm1 : (nodes.map freqOf).Perm (freqOf left :: rest.map freqOf) := by
          simpa using (heappop_perm hpop).map freqOf
        have hperm2 : (rest.map freqOf).Perm (freqOf right :: rest2.map freqOf) := by
          simpa using (heappop_perm hpop2).map freqOf
        have hm1 : ((nodes.map freqOf : List Nat) : Multiset Nat) =
            freqOf left ::ₘ ↑(rest.map freqOf) := by
          rw [show (freqOf left ::ₘ ↑(rest.map freqOf)) =
            ((freqOf left :: rest.map freqOf : List Nat) : Multiset Nat) from rfl]
          exact Multiset.coe_eq_coe.mpr hperm1
        have hm2 : ((rest.map freqOf : List Nat) : Multiset Nat) =
            freqOf right ::ₘ ↑(rest2.map freqOf) := by
          rw [show (freqOf right ::ₘ ↑(rest2.map freqOf)) =
            ((freqOf right :: rest2.map freqOf : List Nat) : Multiset Nat) from rfl]
          exact Multiset.coe_eq_coe.mpr hperm2
        have hpushm : ((heappush rest2 nn).map freqOf : Multiset Nat) =
            (freqOf left + freqOf right) ::ₘ ↑(rest2.map freqOf) := by
          have hp : ((heappush rest2 nn).map freqOf).Perm
              (freqOf nn :: rest2.map freqOf) := by
            simpa using (heappush_perm rest2 nn).map freqOf
          rw [show ((freqOf left + freqOf right) ::ₘ ↑(rest2.map freqOf)) =
            ((freqOf nn :: rest2.map freqOf : List Nat) : Multiset Nat) from rfl]
          exact Multiset.coe_eq_coe.mpr hp
        apply MinMergeCost.step _ (freqOf left) (freqOf right) c
        · rw [hm1]; exact Multiset.mem_cons_self _ _
        · rw [hm1, Multiset.erase_cons_head, hm2]
          exact Multiset.mem_cons_self _ _
        · intro w hw
          rw [Multiset.mem_coe] at hw
          obtain ⟨z, hz, rfl⟩ := List.mem_map.mp hw
          exact hmin1 z hz
        · intro w hw
          rw [hm1, Multiset.erase_cons_head, Multiset.mem_coe] at hw
          obtain ⟨z, hz, rfl⟩ := List.mem_map.mp hw
          exact hmin2 z hz
        · rw [hm1, Multiset.erase_cons_head, hm2, Multiset.erase_cons_head, ← hpushm]
          exact hcost
      · have hdp1 : (nodes.map depthCost).sum =
            depthCost left + (rest.map depthCost).sum := by
          have := ((heappop_perm hpop).map depthCost).sum_eq
          simpa using this
        have hdp2 : (rest.map depthCost).sum =
            depthCost right + (rest2.map depthCost).sum := by
          have := ((heappop_perm hpop2).map depthCost).sum_eq
          simpa using this
        have hdp3 : ((heappush rest2 nn).map depthCost).sum =
            depthCost nn + (rest2.map depthCost).sum := by
          have := ((heappush_perm rest2 nn).map depthCost).sum_eq
          simpa using this
        have hdnn : depthCost nn =
            depthCost left + depthCost right + (freqOf left + freqOf right) := by
          rw [hnndef]
          show depthCost (setHuff left ['0']) + depthCost (setHuff right ['1']) +
            (freqOf (setHuff left ['0']) + freqOf (setHuff right ['1'])) = _
          rw [setHuff_depthCost, setHuff_depthCost, setHuff_freqOf, setHuff_freqOf]
        rw [hdc, hdp3, hdnn, hdp1, hdp2]
        omega
    · rw [mergeLoopF_succ_stop combine k h1]
      cases nodes with
      | nil => exact absurd rfl hne
      | cons n rest =>
        have hr : rest = [] := by
          cases rest with
          | nil => rfl
          | cons m ms => simp at h1
        subst hr
        refine ⟨n, 0, rfl, ?_, by simp⟩
        have : ((([n].map freqOf) : List Nat) : Multiset Nat) = {freqOf n} := by simp
        rw [this]
        exact MinMergeCost.single (freqOf n)

/-! ### C1, upper bound, step 3: optimality of the two-minima merge process -/

theorem swap_to_max (w : Nat) :
    ∀ (R : List (Nat × Nat)) (l : Nat), (∀ p ∈ R, w ≤ p.1) →
      ∃ (lmax : Nat) (m : List Nat),
        m.length = R.length ∧
        (lmax :: m).Perm (l :: R.map Prod.snd) ∧
        (∀ x ∈ l :: R.map Prod.snd, x ≤ lmax) ∧
        w * lmax + (List.zipWith (fun p mi => p.1 * mi) R m).sum ≤
          w * l + (R.map (fun p => p.1 * p.2)).sum := by
  intro R
  induction R with
  | nil =>
    intro l _
    refine ⟨l, [], rfl, .refl _, ?_, by simp⟩
    intro x hx
    simp at hx
    omega
  | cons q Q ih =>
    intro l hw
    obtain ⟨l2, m2, hlen2, hperm2, hmax2, hcost2⟩ := ih l (fun p hp => hw p (.tail _ hp))
    by_cases hcmp : q.2 ≤ l2
    · refine ⟨l2, q.2 :: m2, by simp [hlen2], ?_, ?_, ?_⟩
      · simp only [List.map_cons]
        refine List.Perm.trans (List.Perm.swap _ _ _) ?_
        refine List.Perm.trans (hperm2.cons q.2) ?_
        exact List.Perm.swap _ _ _
      · intro x hx
        simp only [List.map_cons, List.mem_cons] at hx
        rcases hx with rfl | rfl | hx
        · exact hmax2 x (List.mem_cons_self _ _)
        · exact hcmp
        · exact hmax2 x (List.mem_cons_of_mem _ hx)
      · simp only [List.zipWith_cons_cons, List.sum_cons, List.map_cons]
        omega
    · refine ⟨q.2, l2 :: m2, by simp [hlen2], ?_, ?_, ?_⟩
      · simp only [List.map_cons]
        refine List.Perm.trans (hperm2.cons q.2) ?_
        exact List.Perm.swap _ _ _
      · intro x hx
        simp only [List.map_cons, List.mem_cons] at hx
        rcases hx with rfl | rfl | hx
        · exact le_trans (hmax2 x (List.mem_cons_self _ _)) (le_of_lt (not_le.mp hcmp))
        · exact le_refl _
        · exact le_trans (hmax2 x (List.mem_cons_of_mem _ hx))
            (le_of_lt (not_le.mp hcmp))
      · simp only [List.zipWith_cons_cons, List.sum_cons, List.map_cons]
        obtain ⟨d, hd⟩ := Nat.exists_eq_add_of_le (le_of_lt (not_le.mp hcmp))
        have hwq : w * d ≤ q.1 * d := Nat.mul_le_mul_right d (hw q (List.mem_cons_self _ _))
        rw [hd]
        simp only [Nat.mul_add]
        omega

theorem kraftSum_perm {l1 l2 : List Nat} (h : l1.Perm l2) : kraftSum l1 = kraftSum l2 :=
  (h.map (fun l => ((1 : ℝ) / 2) ^ l)).sum_eq

theorem kraftSum_nonneg (ls : List Nat) : 0 ≤ kraftSum ls := by
  apply List.sum_nonneg
  intro x hx
  rcases List.mem_map.mp hx with ⟨l, _, rfl⟩
  positivity

theorem kraftSum_cons (l : Nat) (ls : List Nat) :
    kraftSum (l :: ls) = ((1 : ℝ) / 2) ^ l + kraftSum ls := by
  simp [kraftSum]

theorem kraft_pow_eq (L l : Nat) (hl : l ≤ L) :
    ((1 : ℝ) / 2) ^ l * 2 ^ L = ((2 ^ (L - l) : Nat) : ℝ) := by
  have key : (2 : ℝ) ^ L = 2 ^ l * 2 ^ (L - l) := by
    rw [← pow_add]
    congr 1
    omega
  rw [key]
  push_cast
  rw [div_pow, one_pow]
  field_simp

theorem kraftSum_mul_pow (L : Nat) : ∀ (ls : List Nat), (∀ x ∈ ls, x ≤ L) →
    kraftSum ls * 2 ^ L = (((ls.map (fun l => 2 ^ (L - l))).sum : Nat) : ℝ) := by
  intro ls
  induction ls with
  | nil => intro _; simp [kraftSum]
  | cons a as ih =>
    intro hle
    rw [kraftSum_cons, add_mul, ih (fun x hx => hle x (List.mem_cons_of_mem a hx))]
    rw [kraft_pow_eq L a (hle a (List.mem_cons_self a as))]
    simp only [List.map_cons, List.sum_cons]
    push_cast
    ring

theorem kraft_sum_dyadic (L : Nat) (ls : List Nat) (hle : ∀ x ∈ ls, x ≤ L)
    (h : kraftSum ls < 1) : kraftSum ls + ((1 : ℝ) / 2) ^ L ≤ 1 := by
  have h2L : (0 : ℝ) < 2 ^ L := by positivity
  have hk := kraftSum_mul_pow L ls hle
  have hklt : (((ls.map (fun l => 2 ^ (L - l))).sum : Nat) : ℝ) < 2 ^ L := by
    rw [← hk]
    calc kraftSum ls * 2 ^ L < 1 * 2 ^ L := by
          exact (mul_lt_mul_iff_of_pos_right h2L).mpr h
      _ = 2 ^ L := one_mul _
  have hkn : (ls.map (fun l => 2 ^ (L - l))).sum < 2 ^ L := by
    exact_mod_cast hklt
  have hk1 : (ls.map (fun l => 2 ^ (L - l))).sum + 1 ≤ 2 ^ L := hkn
  have hfrac : kraftSum ls = (((ls.map (fun l => 2 ^ (L - l))).sum : Nat) : ℝ) / 2 ^ L := by
    rw [← hk]
    field_simp
  rw [hfrac]
  rw [show ((1 : ℝ) / 2) ^ L = 1 / 2 ^ L from by rw [div_pow, one_pow]]
  rw [div_add_div_same]
  rw [div_le_one h2L]
  calc (((ls.map (fun l => 2 ^ (L - l))).sum : Nat) : ℝ) + 1
      = (((ls.map (fun l => 2 ^ (L - l))).sum + 1 : Nat) : ℝ) := by push_cast; ring
    _ ≤ ((2 ^ L : Nat) : ℝ) := by exact_mod_cast hk1
    _ = 2 ^ L := by push_cast; ring

theorem zipPair_map_fst : ∀ (R : List (Nat × Nat)) (m : List Nat), m.length = R.length →
    (List.zipWith (fun p mi => (p.1, mi)) R m).map Prod.fst = R.map Prod.fst := by
  intro R
  induction R with
  | nil => intro m _; simp
  | cons q Q ih =>
    intro m hm
    cases m with
    | nil => simp at hm
    | cons a as =>
      simp only [List.length_cons] at hm
      simp only [List.zipWith_cons_cons, List.map_cons]
      rw [ih as (by omega)]

theorem zipPair_map_snd : ∀ (R : List (Nat × Nat)) (m : List Nat), m.length = R.length →
    (List.zipWith (fun p mi => (p.1, mi)) R m).map Prod.snd = m := by
  intro R
  induction R with
  | nil =>
    intro m hm
    simp only [List.length_nil, List.length_eq_zero] at hm
    subst hm
    rfl
  | cons q Q ih =>
    intro m hm
    cases m with
    | nil => simp at hm
    | cons a as =>
      simp only [List.length_cons] at hm
      simp only [List.zipWith_cons_cons, List.map_cons]
      rw [ih as (by omega)]

theorem zipPair_map_cost : ∀ (R : List (Nat × Nat)) (m : List Nat),
    (List.zipWith (fun p mi => (p.1, mi)) R m).map (fun p => p.1 * p.2) =
      List.zipWith (fun p mi => p.1 * mi) R m := by
  intro R
  induction R with
  | nil => intro m; simp
  | cons q Q ih =>
    intro m
    cases m with
    | nil => simp
    | cons a as =>
      simp only [List.zipWith_cons_cons, List.map_cons]
      rw [ih as]

theorem zipPair_mem_fst : ∀ (R : List (Nat × Nat)) (m : List Nat) (p : Nat × Nat),
    p ∈ List.zipWith (fun p mi => (p.1, mi)) R m → ∃ q ∈ R, p.1 = q.1 := by
  intro R
  induction R with
  | nil => intro m p hp; simp at hp
  | cons q Q ih =>
    intro m p hp
    cases m with
    | nil => simp at hp
    | cons a as =>
      simp only [List.zipWith_cons_cons, List.mem_cons] at hp
      rcases hp with rfl | hp
      · exact ⟨q, List.mem_cons_self _ _, rfl⟩
      · obtain ⟨r, hr, he⟩ := ih as p hp
        exact ⟨r, List.mem_cons_of_mem _ hr, he⟩

theorem zipPair_cost_zip : ∀ (R : List (Nat × Nat)) (m m2 : List Nat), m.length = R.length →
    List.zipWith (fun p mi => p.1 * mi) (List.zipWith (fun p mi => (p.1, mi)) R m) m2 =
      List.zipWith (fun p mi => p.1 * mi) R m2 := by
  intro R
  induction R with
  | nil => intro m m2 _; simp
  | cons q Q ih =>
    intro m m2 hm
    cases m with
    | nil => simp at hm
    | cons a as =>
      simp only [List.length_cons] at hm
      cases m2 with
      | nil => simp
      | cons c cs =>
        simp only [List.zipWith_cons_cons]
        rw [ih as cs (by omega)]

theorem kraft_pair_reduction (a b la lb : Nat) (R : List (Nat × Nat))
    (hab : a ≤ b) (haR : ∀ p ∈ R, a ≤ p.1) (hbR : ∀ p ∈ R, b ≤ p.1)
    (hk : kraftSum (la :: lb :: R.map Prod.snd) ≤ 1) :
    ∃ (L : Nat) (m : List Nat), 1 ≤ L ∧ m.length = R.length ∧
      kraftSum (L :: L :: m) ≤ 1 ∧
      a * L + b * L + (List.zipWith (fun p mi => p.1 * mi) R m).sum ≤
        a * la + b * lb + (R.map (fun p => p.1 * p.2)).sum := by
  obtain ⟨l1, m1, hlen1, hperm1, hmax1, hcost1⟩ :=
    swap_to_max a ((b, lb) :: R) la (by
      intro p hp
      rcases List.mem_cons.mp hp with rfl | hp
      · exact hab
      · exact haR p hp)
  cases m1 with
  | nil => simp at hlen1
  | cons m1h m1t =>
    simp only [List.length_cons] at hlen1
    have hm1t : m1t.length = R.length := by omega
    simp only [List.map_cons] at hperm1 hmax1
    simp only [List.zipWith_cons_cons, List.map_cons, List.sum_cons] at hcost1
    obtain ⟨l2, m2, hlen2, hperm2, hmax2, hcost2⟩ :=
      swap_to_max b (List.zipWith (fun p mi => (p.1, mi)) R m1t) m1h (by
        intro p hp
        obtain ⟨q, hq, he⟩ := zipPair_mem_fst R m1t p hp
        rw [he]
        exact hbR q hq)
    rw [List.length_zipWith, hm1t, Nat.min_self] at hlen2
    rw [zipPair_map_snd R m1t hm1t] at hperm2 hmax2
    rw [zipPair_cost_zip R m1t m2 hm1t, zipPair_map_cost R m1t] at hcost2
    have hkperm : kraftSum (l1 :: l2 :: m2) ≤ 1 := by
      rw [kraftSum_perm ((hperm2.cons l1).trans hperm1)]
      exact hk
    have hl2mem : l2 ∈ m1h :: m1t := hperm2.mem_iff.mp (List.mem_cons_self _ _)
    have hl2orig : l2 ∈ la :: lb :: R.map Prod.snd :=
      hperm1.mem_iff.mp (List.mem_cons_of_mem l1 hl2mem)
    have hl2l1 : l2 ≤ l1 := hmax1 l2 hl2orig
    have hL1 : 1 ≤ l2 := by
      by_contra hL0
      push_neg at hL0
      have hl20 : l2 = 0 := by omega
      have hpos : (0 : ℝ) < ((1 : ℝ) / 2) ^ l1 := by positivity
      have hm2n : 0 ≤ kraftSum m2 := kraftSum_nonneg m2
      rw [kraftSum_cons, kraftSum_cons, hl20, pow_zero] at hkperm
      linarith
    have hkfinal : kraftSum (l2 :: l2 :: m2) ≤ 1 := by
      rcases Nat.lt_or_ge l2 l1 with hlt | hge
      · have hklt : kraftSum (l2 :: m2) < 1 := by
          rw [kraftSum_cons] at hkperm
          have hpos : (0 : ℝ) < ((1 : ℝ) / 2) ^ l1 := by positivity
          linarith
        have hle : ∀ x ∈ l2 :: m2, x ≤ l2 := by
          intro x hx
          rcases List.mem_cons.mp hx with rfl | hx
          · exact le_refl x
          · exact hmax2 x (hperm2.mem_iff.mp (List.mem_cons_of_mem l2 hx))
        have hd := kraft_sum_dyadic l2 (l2 :: m2) hle hklt
        rw [kraftSum_cons]
        linarith
      · have heq : l1 = l2 := le_antisymm hge hl2l1
        subst heq
        exact hkperm
    refine ⟨l2, m2, hL1, hlen2, hkfinal, ?_⟩
    calc a * l2 + b * l2 + (List.zipWith (fun p mi => p.1 * mi) R m2).sum
        = a * l2 + (b * l2 + (List.zipWith (fun p mi => p.1 * mi) R m2).sum) := by
          rw [Nat.add_assoc]
      _ ≤ a * l1 + (b * m1h + (List.zipWith (fun p mi => p.1 * mi) R m1t).sum) :=
          Nat.add_le_add (Nat.mul_le_mul_left a hl2l1) hcost2
      _ ≤ a * la + (b * lb + (R.map (fun p => p.1 * p.2)).sum) := hcost1
      _ = a * la + b * lb + (R.map (fun p => p.1 * p.2)).sum := by
          rw [Nat.add_assoc]

theorem minMergeCost_le_kraft {W : Multiset Nat} {c : Nat} (h : MinMergeCost W c) :
    ∀ (P : List (Nat × Nat)), ((P.map Prod.fst : List Nat) : Multiset Nat) = W →
      kraftSum (P.map Prod.snd) ≤ 1 →
      c ≤ (P.map (fun p => p.1 * p.2)).sum := by
  induction h with
  | single w =>
    intro P _ _
    exact Nat.zero_le _
  | step W a b c ha hb hmina hminb hrec ih =>
    intro P hPW hk
    have haP : a ∈ P.map Prod.fst := by
      rw [← Multiset.mem_coe, hPW]
      exact ha
    obtain ⟨pa, hpaP, hpa1⟩ := List.mem_map.mp haP
    obtain ⟨s1, t1, hPeq⟩ := List.append_of_mem hpaP
    have hP2 : P.Perm (pa :: (s1 ++ t1)) := by
      rw [hPeq]
      exact List.perm_middle
    have hfst2 : (((s1 ++ t1).map Prod.fst : List Nat) : Multiset Nat) = W.erase a := by
      have hp := hP2.map Prod.fst
      simp only [List.map_cons] at hp
      rw [hpa1] at hp
      have hcoe : ((P.map Prod.fst : List Nat) : Multiset Nat) =
          a ::ₘ (((s1 ++ t1).map Prod.fst : List Nat) : Multiset Nat) := by
        rw [show (a ::ₘ (((s1 ++ t1).map Prod.fst : List Nat) : Multiset Nat)) =
          ((a :: (s1 ++ t1).map Prod.fst : List Nat) : Multiset Nat) from rfl]
        exact Multiset.coe_eq_coe.mpr hp
      rw [← hPW, hcoe, Multiset.erase_cons_head]
    have hbP : b ∈ (s1 ++ t1).map Prod.fst := by
      rw [← Multiset.mem_coe, hfst2]
      exact hb
    obtain ⟨pb, hpbP, hpb1⟩ := List.mem_map.mp hbP
    obtain ⟨s2, t2, hQeq⟩ := List.append_of_mem hpbP
    have hQ12 : (s1 ++ t1).Perm (pb :: (s2 ++ t2)) := by
      rw [hQeq]
      exact List.perm_middle
    have hfst3 : (((s2 ++ t2).map Prod.fst : List Nat) : Multiset Nat) =
        (W.erase a).erase b := by
      have hp := hQ12.map Prod.fst
      simp only [List.map_cons] at hp
      rw [hpb1] at hp
      have hcoe : (((s1 ++ t1).map Prod.fst : List Nat) : Multiset Nat) =
          b ::ₘ (((s2 ++ t2).map Prod.fst : List Nat) : Multiset Nat) := by
        rw [show (b ::ₘ (((s2 ++ t2).map Prod.fst : List Nat) : Multiset Nat)) =
          ((b :: (s2 ++ t2).map Prod.fst : List Nat) : Multiset Nat) from rfl]
        exact Multiset.coe_eq_coe.mpr hp
      rw [← hfst2, hcoe, Multiset.erase_cons_head]
    have hPP : P.Perm (pa :: pb :: (s2 ++ t2)) := hP2.trans (hQ12.cons pa)
    have hab : a ≤ b := hmina b (Multiset.mem_of_mem_erase hb)
    have haR : ∀ p ∈ s2 ++ t2, a ≤ p.1 := by
      intro p hp
      have h1 : p.1 ∈ (s2 ++ t2).map Prod.fst := List.mem_map_of_mem Prod.fst hp
      have h2 : p.1 ∈ (W.erase a).erase b := by
        rw [← hfst3]
        exact Multiset.mem_coe.mpr h1
      exact hmina p.1 (Multiset.mem_of_mem_erase (Multiset.mem_of_mem_erase h2))
    have hbR : ∀ p ∈ s2 ++ t2, b ≤ p.1 := by
      intro p hp
      have h1 : p.1 ∈ (s2 ++ t2).map Prod.fst := List.mem_map_of_mem Prod.fst hp
      have h2 : p.1 ∈ (W.erase a).erase b := by
        rw [← hfst3]
        exact Multiset.mem_coe.mpr h1
      exact hminb p.1 (Multiset.mem_of_mem_erase h2)
    have hksnd : kraftSum (pa.2 :: pb.2 :: (s2 ++ t2).map Prod.snd) ≤ 1 := by
      have hp := hPP.map Prod.snd
      simp only [List.map_cons] at hp
      rw [← kraftSum_perm hp]
      exact hk
    obtain ⟨L, m, hL1, hlenm, hkLLm, hcostT⟩ :=
      kraft_pair_reduction a b pa.2 pb.2 (s2 ++ t2) hab haR hbR hksnd
    obtain ⟨L', rfl⟩ : ∃ L', L = L' + 1 := ⟨L - 1, by omega⟩
    have hfstP' : ((((a + b, L') ::
        List.zipWith (fun p mi => (p.1, mi)) (s2 ++ t2) m).map Prod.fst :
          List Nat) : Multiset Nat) = (a + b) ::ₘ (W.erase a).erase b := by
      simp only [List.map_cons]
      rw [zipPair_map_fst _ m hlenm]
      rw [show ((a + b) ::ₘ (W.erase a).erase b) =
        ((a + b) ::ₘ (((s2 ++ t2).map Prod.fst : List Nat) : Multiset Nat)) from
        by rw [hfst3]]
      rfl
    have hkP' : kraftSum (((a + b, L') ::
        List.zipWith (fun p mi => (p.1, mi)) (s2 ++ t2) m).map Prod.snd) ≤ 1 := by
      simp only [List.map_cons]
      rw [zipPair_map_snd _ m hlenm]
      have heq : kraftSum ((((a + b, L') : Nat × Nat).2) :: m) =
          kraftSum ((L' + 1) :: (L' + 1) :: m) := by
        rw [kraftSum_cons, kraftSum_cons, kraftSum_cons, pow_succ]
        show ((1 : ℝ) / 2) ^ L' + kraftSum m = _
        ring
      rw [heq]
      exact hkLLm
    have ihc := ih _ hfstP' hkP'
    simp only [List.map_cons, List.sum_cons] at ihc
    rw [zipPair_map_cost _ m] at ihc
    have hPcost : (P.map (fun p => p.1 * p.2)).sum =
        pa.1 * pa.2 + (pb.1 * pb.2 +
          ((s2 ++ t2).map (fun p => p.1 * p.2)).sum) := by
      have hp := (hPP.map (fun p => p.1 * p.2)).sum_eq
      simp only [List.map_cons, List.sum_cons] at hp
      exact hp
    have hstep1 : c + (a + b) ≤
        ((a + b) * L' + (List.zipWith (fun p mi => p.1 * mi) (s2 ++ t2) m).sum) + (a + b) :=
      Nat.add_le_add_right ihc _
    have hstep2 : ((a + b) * L' +
        (List.zipWith (fun p mi => p.1 * mi) (s2 ++ t2) m).sum) + (a + b) =
        a * (L' + 1) + b * (L' + 1) +
          (List.zipWith (fun p mi => p.1 * mi) (s2 ++ t2) m).sum := by
      ring
    have hstep3 : a * pa.2 + b * pb.2 + ((s2 ++ t2).map (fun p => p.1 * p.2)).sum =
        (P.map (fun p => p.1 * p.2)).sum := by
      rw [hPcost, hpa1, hpb1]
      ring
    rw [← hstep3]
    rw [hstep2] at hstep1
    exact le_trans hstep1 hcostT

/-! ### C1, upper bound, step 4: linking the tree back to the program -/

theorem codesOf_cost (t : List Char) :
    ∀ (n : Node (List Char)), wellFormed n = true → goodHuff n = true → leafFreqCnt t n →
      ∀ (code : List Char),
      ((codesOf n code).map (fun sc => counterLookup t sc.1 * sc.2.length)).sum =
        depthCost n + freqOf n * (code.length + (huffOf n).length) := by
  intro n
  induction n with
  | leaf f s h =>
    intro _ _ hcnt code
    have hf : f = counterLookup t s := hcnt
    simp only [codesOf, List.map_cons, List.map_nil, List.sum_cons, List.sum_nil,
      depthCost, freqOf, huffOf]
    rw [List.length_append, hf]
    ring
  | internal f s l r h ihl ihr =>
    intro hwf hgh hcnt code
    simp only [wellFormed, Bool.and_eq_true, beq_iff_eq] at hwf
    obtain ⟨⟨hfeq, hwl⟩, hwr⟩ := hwf
    simp only [goodHuff, Bool.and_eq_true, beq_iff_eq] at hgh
    obtain ⟨⟨⟨hhl, hhr⟩, hgl⟩, hgr⟩ := hgh
    obtain ⟨hcl, hcr⟩ := hcnt
    simp only [codesOf, List.map_append, List.sum_append]
    rw [ihl hwl hgl hcl (code ++ h), ihr hwr hgr hcr (code ++ h)]
    show _ = (depthCost l + depthCost r + (freqOf l + freqOf r)) +
      f * (code.length + h.length)
    rw [hhl, hhr, List.length_append, hfeq]
    simp only [List.length_cons, List.length_nil]
    ring

theorem buildLeafHeap_depthCost (t : List Char) :
    ((buildLeafHeap t).map depthCost).sum = 0 := by
  rw [((buildLeafHeap_perm t).map depthCost).sum_eq]
  rw [List.map_map]
  rw [show (depthCost ∘ fun s => Node.leaf (t.count s) [s] ([] : List Char)) =
      (fun _ => (0 : Nat)) from by funext s; rfl]
  simp

theorem huffman_root_minMergeCost (t : List Char) (hne : t ≠ []) {root : Node (List Char)}
    (hr : mergeLoopF combineStr (buildLeafHeap t).length (buildLeafHeap t) = [root]) :
    MinMergeCost (((keys t).map (fun s => t.count s) : List Nat) : Multiset Nat)
      (depthCost root) := by
  have hkne : keys t ≠ [] := fun h => hne ((keys_nil_iff t).mp h)
  have hlen : 0 < (buildLeafHeap t).length := by
    rw [buildLeafHeap_length]
    exact List.length_pos.mpr hkne
  obtain ⟨root', c, hroot', hcost, hdc⟩ := mergeLoop_minMergeCost combineStr
    (buildLeafHeap t).length (buildLeafHeap t) (List.length_pos.mp hlen)
    (by omega) (buildLeafHeap_isHeap t)
  rw [hr] at hroot'
  have hrr : root = root' := by
    injection hroot' with h1 _
  subst hrr
  have hfm : (((buildLeafHeap t).map freqOf : List Nat) : Multiset Nat) =
      (((keys t).map (fun s => t.count s) : List Nat) : Multiset Nat) := by
    apply Multiset.coe_eq_coe.mpr
    refine ((buildLeafHeap_perm t).map freqOf).trans ?_
    rw [List.map_map]
    rw [show (freqOf ∘ fun s => Node.leaf (t.count s) [s] ([] : List Char)) =
      (fun s => t.count s) from by funext s; rfl]
  rw [← hfm]
  have hdcc : depthCost root = c := by
    rw [hdc, buildLeafHeap_depthCost]
    omega
  rw [hdcc]
  exact hcost

theorem toNat_cast_of_nonneg {z : ℤ} (hz : 0 ≤ z) : ((z.toNat : Nat) : ℝ) = (z : ℝ) := by
  rw [← Int.cast_natCast, Int.toNat_of_nonneg hz]

theorem keys_prob_sum_one (t : List Char) (hne : t ≠ []) :
    ((keys t).map (fun s => (t.count s : ℝ) / (t.length : ℝ))).sum = 1 := by
  have hn : ((t.length : ℕ) : ℝ) ≠ 0 :=
    Nat.cast_ne_zero.mpr (fun h => hne (List.length_eq_zero.mp h))
  rw [show ((keys t).map (fun s => (t.count s : ℝ) / (t.length : ℝ))) =
      ((keys t).map (fun s => (t.count s : ℝ) * ((t.length : ℝ))⁻¹)) from
    List.map_congr_left (fun s _ => by rw [div_eq_mul_inv])]
  rw [List.sum_map_mul_right]
  rw [show ((keys t).map (fun s => ((t.count s : ℕ) : ℝ))) =
      (((keys t).map (fun s => t.count s)).map Nat.cast) from by rw [List.map_map]; rfl]
  rw [← Nat.cast_list_sum, keys_sum_count_inst]
  exact mul_inv_cancel₀ hn

/-! ### C1, upper bound, step 5: the Shannon competitor code -/

theorem shannon_len_lt (t : List Char) (s : Char) (hs : s ∈ keys t) :
    ((shannonLen t s : Nat) : ℝ) < Real.logb 2 ((t.length : ℝ) / (t.count s : ℝ)) + 1 := by
  have hcnt : 0 < t.count s := List.count_pos_iff.mpr ((keys_mem s t).mp hs)
  have hcntR : (0 : ℝ) < (t.count s : ℝ) := by exact_mod_cast hcnt
  have hlen : t.count s ≤ t.length := List.count_le_length s t
  have hratio : (1 : ℝ) ≤ (t.length : ℝ) / (t.count s : ℝ) := by
    rw [one_le_div hcntR]
    exact_mod_cast hlen
  have hx : 0 ≤ Real.logb 2 ((t.length : ℝ) / (t.count s : ℝ)) :=
    Real.logb_nonneg one_lt_two hratio
  have hceil : 0 ≤ Int.ceil (Real.logb 2 ((t.length : ℝ) / (t.count s : ℝ))) :=
    Int.ceil_nonneg hx
  unfold shannonLen
  rw [toNat_cast_of_nonneg hceil]
  exact Int.ceil_lt_add_one _

theorem shannon_term_le (t : List Char) (hne : t ≠ []) (s : Char) (hs : s ∈ keys t) :
    ((1 : ℝ) / 2) ^ (shannonLen t s) ≤ (t.count s : ℝ) / (t.length : ℝ) := by
  have hcnt : 0 < t.count s := List.count_pos_iff.mpr ((keys_mem s t).mp hs)
  have hcntR : (0 : ℝ) < (t.count s : ℝ) := by exact_mod_cast hcnt
  have hn0 : 0 < t.length := List.length_pos.mpr hne
  have hnR : (0 : ℝ) < (t.length : ℝ) := by exact_mod_cast hn0
  have hlen : t.count s ≤ t.length := List.count_le_length s t
  have hratio : (1 : ℝ) ≤ (t.length : ℝ) / (t.count s : ℝ) := by
    rw [one_le_div hcntR]
    exact_mod_cast hlen
  have hrpos : (0 : ℝ) < (t.length : ℝ) / (t.count s : ℝ) := div_pos hnR hcntR
  have hx : 0 ≤ Real.logb 2 ((t.length : ℝ) / (t.count s : ℝ)) :=
    Real.logb_nonneg one_lt_two hratio
  have hceil : 0 ≤ Int.ceil (Real.logb 2 ((t.length : ℝ) / (t.count s : ℝ))) :=
    Int.ceil_nonneg hx
  have hm : Real.logb 2 ((t.length : ℝ) / (t.count s : ℝ)) ≤
      ((shannonLen t s : Nat) : ℝ) := by
    unfold shannonLen
    rw [toNat_cast_of_nonneg hceil]
    exact Int.le_ceil _
  have hpow : (t.length : ℝ) / (t.count s : ℝ) ≤ 2 ^ (shannonLen t s) := by
    have h1 : (2 : ℝ) ^ (Real.logb 2 ((t.length : ℝ) / (t.count s : ℝ))) =
        (t.length : ℝ) / (t.count s : ℝ) :=
      Real.rpow_logb (by norm_num) (by norm_num) hrpos
    rw [← h1]
    calc (2 : ℝ) ^ (Real.logb 2 ((t.length : ℝ) / (t.count s : ℝ)))
        ≤ (2 : ℝ) ^ (((shannonLen t s : Nat) : ℝ)) :=
          Real.rpow_le_rpow_of_exponent_le one_le_two hm
      _ = 2 ^ (shannonLen t s) := Real.rpow_natCast 2 (shannonLen t s)
  rw [div_pow, one_pow]
  rw [div_le_div_iff (by positivity) hnR, one_mul]
  have h2 := (div_le_iff hcntR).mp hpow
  linarith

theorem shannon_kraft (t : List Char) (hne : t ≠ []) :
    kraftSum ((keys t).map (fun s => shannonLen t s)) ≤ 1 := by
  unfold kraftSum
  rw [List.map_map]
  calc ((keys t).map ((fun l => ((1 : ℝ) / 2) ^ l) ∘ fun s => shannonLen t s)).sum
      ≤ ((keys t).map (fun s => (t.count s : ℝ) / (t.length : ℝ))).sum := by
        apply List.sum_le_sum
        intro s hs
        exact shannon_term_le t hne s hs
    _ = 1 := keys_prob_sum_one t hne

theorem entropy_shannon_sum (t : List Char) (hne : t ≠ []) :
    ((keys t).map (fun s => (t.count s : ℝ) *
        (Real.logb 2 ((t.length : ℝ) / (t.count s : ℝ)) + 1))).sum =
      (t.length : ℝ) * (calculate_first_order_entropy t + 1) := by
  have hnR : ((t.length : ℕ) : ℝ) ≠ 0 :=
    Nat.cast_ne_zero.mpr (fun h => hne (List.length_eq_zero.mp h))
  have e1 : ((keys t).map (fun s => (t.count s : ℝ) *
      (Real.logb 2 ((t.length : ℝ) / (t.count s : ℝ)) + 1))).sum =
      ((keys t).map (fun s => (t.count s : ℝ) *
        Real.logb 2 ((t.length : ℝ) / (t.count s : ℝ)))).sum +
      ((keys t).map (fun s => (t.count s : ℝ))).sum := by
    rw [← list_sum_map_add]
    exact congrArg List.sum (List.map_congr_left (fun s _ => by ring))
  have e2 : ((keys t).map (fun s => ((t.count s : ℕ) : ℝ))).sum = (t.length : ℝ) := by
    rw [show ((keys t).map (fun s => ((t.count s : ℕ) : ℝ))) =
        (((keys t).map (fun s => t.count s)).map Nat.cast) from by rw [List.map_map]; rfl]
    rw [← Nat.cast_list_sum, keys_sum_count_inst]
  have hstep : ∀ s ∈ keys t, (t.count s : ℝ) *
      Real.logb 2 ((t.length : ℝ) / (t.count s : ℝ)) =
      -((t.length : ℝ) * (((t.count s : ℝ) / (t.length : ℝ)) *
        Real.logb 2 ((t.count s : ℝ) / (t.length : ℝ)))) := by
    intro s hs
    have hlog : Real.logb 2 ((t.length : ℝ) / (t.count s : ℝ)) =
        -Real.logb 2 ((t.count s : ℝ) / (t.length : ℝ)) := by
      rw [← Real.logb_inv, inv_div]
    rw [hlog, ← mul_assoc]
    rw [show (t.length : ℝ) * ((t.count s : ℝ) / (t.length : ℝ)) = (t.count s : ℝ) from by
      field_simp]
    ring
  have e3 : ((keys t).map (fun s => (t.count s : ℝ) *
      Real.logb 2 ((t.length : ℝ) / (t.count s : ℝ)))).sum =
      (t.length : ℝ) * calculate_first_order_entropy t := by
    rw [List.map_congr_left hstep, list_sum_map_neg, List.sum_map_mul_left]
    unfold calculate_first_order_entropy
    ring
  rw [e1, e2, e3]
  ring

theorem shannon_cost_lt (t : List Char) (hne : t ≠ []) :
    ((((keys t).map (fun s => t.count s * shannonLen t s)).sum : Nat) : ℝ) <
      (t.length : ℝ) * (calculate_first_order_entropy t + 1) := by
  have hcast : ((((keys t).map (fun s => t.count s * shannonLen t s)).sum : Nat) : ℝ) =
      ((keys t).map (fun s => (t.count s : ℝ) * ((shannonLen t s : Nat) : ℝ))).sum := by
    rw [show ((keys t).map (fun s => (t.count s : ℝ) * ((shannonLen t s : Nat) : ℝ))) =
        (((keys t).map (fun s => t.count s * shannonLen t s)).map Nat.cast) from by
      rw [List.map_map]
      exact List.map_congr_left (fun s _ => by
        simp only [Function.comp_apply]
        push_cast
        ring)]
    rw [← Nat.cast_list_sum]
  rw [hcast, ← entropy_shannon_sum t hne]
  have hterm : ∀ s ∈ keys t, (t.count s : ℝ) * ((shannonLen t s : Nat) : ℝ) <
      (t.count s : ℝ) * (Real.logb 2 ((t.length : ℝ) / (t.count s : ℝ)) + 1) := by
    intro s hs
    have hcnt : 0 < t.count s := List.count_pos_iff.mpr ((keys_mem s t).mp hs)
    have hcntR : (0 : ℝ) < (t.count s : ℝ) := by exact_mod_cast hcnt
    exact mul_lt_mul_of_pos_left (shannon_len_lt t s hs) hcntR
  have hkne : keys t ≠ [] := fun h => hne ((keys_nil_iff t).mp h)
  obtain ⟨k, ks, hkeq⟩ := List.exists_cons_of_ne_nil hkne
  rw [hkeq]
  simp only [List.map_cons, List.sum_cons]
  have h1 := hterm k (by rw [hkeq]; exact List.mem_cons_self _ _)
  have h2 : (ks.map (fun s => (t.count s : ℝ) * ((shannonLen t s : Nat) : ℝ))).sum ≤
      (ks.map (fun s => (t.count s : ℝ) *
        (Real.logb 2 ((t.length : ℝ) / (t.count s : ℝ)) + 1))).sum := by
    apply List.sum_le_sum
    intro s hs
    exact le_of_lt (hterm s (by rw [hkeq]; exact List.mem_cons_of_mem _ hs))
  exact add_lt_add_of_lt_of_le h1 h2

theorem avg_eq_depthCost (t : List Char) {root : Node (List Char)}
    (hr : mergeLoopF combineStr (buildLeafHeap t).length (buildLeafHeap t) = [root]) :
    calculate_average_codeword_length t = ((depthCost root : Nat) : ℝ) / (t.length : ℝ) := by
  unfold calculate_average_codeword_length
  rw [generate_eq_codesOf hr]
  have hcost := codesOf_cost t root (mergeLoop_root_wellFormed hr) (mergeLoop_root_goodHuff hr)
    (mergeLoop_root_leafFreqCnt hr) []
  rw [mergeLoop_root_huff_nil hr] at hcost
  simp only [List.length_nil, Nat.add_zero, Nat.mul_zero] at hcost
  rw [show ((codesOf root []).map (fun sc =>
      ((counterLookup t sc.1 : ℝ) / (t.length : ℝ)) * (sc.2.length : ℝ))) =
      ((codesOf root []).map (fun sc =>
        ((counterLookup t sc.1 * sc.2.length : ℕ) : ℝ) * ((t.length : ℝ))⁻¹)) from
    List.map_congr_left (fun sc _ => by push_cast; ring)]
  rw [List.sum_map_mul_right]
  rw [show ((codesOf root []).map (fun sc => ((counterLookup t sc.1 * sc.2.length : ℕ) : ℝ))) =
      (((codesOf root []).map (fun sc => counterLookup t sc.1 * sc.2.length)).map Nat.cast)
      from by rw [List.map_map]; rfl]
  rw [← Nat.cast_list_sum, hcost, div_eq_mul_inv]

theorem avg_lt_entropy_succ (t : List Char) (hne : t ≠ []) :
    calculate_average_codeword_length t < calculate_first_order_entropy t + 1 := by
  obtain ⟨root, hr⟩ := mergeLoop_root_exists t hne
  have havg := avg_eq_depthCost t hr
  have hmc := huffman_root_minMergeCost t hne hr
  have hfst : ((((keys t).map (fun s => (t.count s, shannonLen t s))).map Prod.fst :
      List Nat) : Multiset Nat) =
      (((keys t).map (fun s => t.count s) : List Nat) : Multiset Nat) := by
    rw [List.map_map]
    rfl
  have hsnd : ((keys t).map (fun s => (t.count s, shannonLen t s))).map Prod.snd =
      (keys t).map (fun s => shannonLen t s) := by
    rw [List.map_map]
    rfl
  have hkraft : kraftSum ((((keys t).map
      (fun s => (t.count s, shannonLen t s))).map Prod.snd)) ≤ 1 := by
    rw [hsnd]
    exact shannon_kraft t hne
  have hopt := minMergeCost_le_kraft hmc
    ((keys t).map (fun s => (t.count s, shannonLen t s))) hfst hkraft
  have hcosteq : (((keys t).map (fun s => (t.count s, shannonLen t s))).map
      (fun p => p.1 * p.2)) = (keys t).map (fun s => t.count s * shannonLen t s) := by
    rw [List.map_map]
    rfl
  rw [hcosteq] at hopt
  have hlt := shannon_cost_lt t hne
  have hn0 : 0 < t.length := List.length_pos.mpr hne
  have hnR : (0 : ℝ) < (t.length : ℝ) := by exact_mod_cast hn0
  rw [havg, div_lt_iff hnR]
  calc ((depthCost root : Nat) : ℝ)
      ≤ ((((keys t).map (fun s => t.count s * shannonLen t s)).sum : Nat) : ℝ) := by
        exact_mod_cast hopt
    _ < (t.length : ℝ) * (calculate_first_order_entropy t + 1) := hlt
    _ = (calculate_first_order_entropy t + 1) * (t.length : ℝ) := by ring

/-- C1: for every text with at least two distinct symbols, the average
codeword length returned by calculate_average_codeword_length is at
least the first-order entropy and strictly below the first-order entropy
plus one bit. -/
theorem entropy_bounds_average_length (t : List Char) (h2 : 2 ≤ (keys t).length) :
    calculate_first_order_entropy t ≤ calculate_average_codeword_length t ∧
    calculate_average_codeword_length t < calculate_first_order_entropy t + 1 := by
  have hne : t ≠ [] := by
    intro h
    subst h
    simp [keys, keysAux] at h2
  exact ⟨avg_ge_entropy t hne, avg_lt_entropy_succ t hne⟩

theorem entropy_bounds_average_length_witness :
    2 ≤ (keys ['A', 'B']).length ∧
      (calculate_first_order_entropy ['A', 'B'] ≤
        calculate_average_codeword_length ['A', 'B'] ∧
       calculate_average_codeword_length ['A', 'B'] <
        calculate_first_order_entropy ['A', 'B'] + 1) :=
  ⟨by decide, entropy_bounds_average_length ['A', 'B'] (by decide)⟩
